import Mathlib

/-!
# A verification development for the hastydb LSM storage engine

This file shallowly embeds the parts of the `hastydb` Go repository that the
frozen claims talk about, and proves (or refutes) each claim against that
embedding.

Conventions of the embedding:
* Go byte slices and Go strings are modelled as `List Nat` (each element a
  byte value); a possibly-nil Go `[]byte` is `Option (List Nat)` with `none`
  standing for the nil slice.
* Go `string` comparison (`<`, `>`) is lexicographic byte order, embedded by
  `keyLtB` below.
* Stateful code is embedded by explicit state passing; Go runtime panics
  (nil-pointer dereference, nil-interface type assertion) are modelled as
  distinguished error values so that theorems can talk about them.
* Machine integers that matter (the u32 record-length prefix) are `Nat`
  with an explicit `% 2 ^ 32`.
-/

set_option maxHeartbeats 1600000

namespace HastyDB

/-- Byte strings (Go `string` / non-nil `[]byte`) as lists of byte values. -/
abbrev Bytes := List Nat

/-- A Go `[]byte` that may be nil: `none` is the nil slice. -/
abbrev GoBytes := Option Bytes

/-- Lexicographic byte order on keys, mirroring Go string `<`. -/
def keyLtB : Bytes → Bytes → Bool
  | [], [] => false
  | [], _ :: _ => true
  | _ :: _, [] => false
  | a :: as, b :: bs => if a < b then true else if b < a then false else keyLtB as bs

/-! ## Record codec (src/segment.go)

One record on disk is `len:u32-little-endian | key-bytes | 0x00 | value-bytes`
where `len = 4 + |key| + 1 + |value|` counts the length field itself.
-/

/-- `recordLengthSize` from src/segment.go: byte size of the length prefix. -/
def recordLengthSize : Nat := 4

/-- `recordKeyValueDelimeter` from src/segment.go: the 0x00 separator. -/
def recordKeyValueDelimeter : Nat := 0

/-- A key-value record as in src/segment.go (`key`, `value`, merge `order`). -/
structure Rec where
  key : Bytes
  value : Bytes
  order : Nat
deriving DecidableEq, Repr

/-- `recordLen` from src/segment.go: total record length as a u32
(`recordLengthSize + len(key) + 1 + len(value)` with u32 wraparound). -/
def recordLen (key : Bytes) (value : Bytes) : Nat :=
  (recordLengthSize + key.length + 1 + value.length) % 2 ^ 32

/-- Little-endian byte serialization of a u32, as `binary.Write` with
`binary.LittleEndian` produces for a `uint32`. -/
def u32le (n : Nat) : Bytes :=
  [n % 256, n / 256 % 256, n / 2 ^ 16 % 256, n / 2 ^ 24 % 256]

/-- `encode` from src/segment.go: the four-byte little-endian length, then
key bytes, the 0x00 delimiter, then value bytes. -/
def encode (rec : Rec) : Bytes :=
  u32le (recordLen rec.key rec.value) ++ rec.key ++ [recordKeyValueDelimeter] ++ rec.value

/-- `decode` from src/segment.go: skip the four length bytes, split at the
first 0x00; a buffer without 0x00 is malformed and Go returns a nil record
(`none` here).  (Go would panic slicing a buffer shorter than four bytes;
no claim exercises that path and `List.drop` totalizes it.) -/
def decode (b : Bytes) : Option Rec :=
  let b2 := b.drop recordLengthSize
  match b2.findIdx? (fun c => c == recordKeyValueDelimeter) with
  | none => none
  | some i => some { key := b2.take i, value := b2.drop (i + 1), order := 0 }

end HastyDB

namespace HastyDB

theorem findIdx_sep (k v : Bytes) (s : Nat) (hk : recordKeyValueDelimeter ∉ k) :
    (k ++ recordKeyValueDelimeter :: v).findIdx?
      (fun c => c == recordKeyValueDelimeter) s = some (s + k.length) := by
  induction k generalizing s with
  | nil => simp [List.findIdx?_cons]
  | cons a as ih =>
    simp only [List.mem_cons, not_or] at hk
    rw [List.cons_append, List.findIdx?_cons]
    have ha : (a == recordKeyValueDelimeter) = false := by
      simp only [beq_eq_false_iff_ne, ne_eq]
      exact fun h => hk.1 h.symm
    rw [ha, if_neg (by simp), ih (s + 1) hk.2]
    congr 1
    simp [List.length_cons]
    omega

/-- **C6.** For every record whose key contains no 0x00 byte,
`decode (encode r)` returns a record with the same key and value; and encoding
`{key := "name", value := "Bob"}` yields exactly the bytes
`[12,0,0,0, 110,97,109,101, 0, 66,111,98]` (a little-endian u32 length equal
to `4 + |key| + 1 + |value|`, then key, 0x00, value), and decoding those
bytes yields the same record back. -/
theorem codec_roundtrip (r : Rec) (hk : recordKeyValueDelimeter ∉ r.key) :
    decode (encode r) = some { key := r.key, value := r.value, order := 0 } ∧
    encode { key := [110, 97, 109, 101], value := [66, 111, 98], order := 0 }
      = [12, 0, 0, 0, 110, 97, 109, 101, 0, 66, 111, 98] ∧
    decode [12, 0, 0, 0, 110, 97, 109, 101, 0, 66, 111, 98]
      = some { key := [110, 97, 109, 101], value := [66, 111, 98], order := 0 } := by
  refine ⟨?_, by decide, by decide⟩
  have hdrop : (encode r).drop recordLengthSize
      = r.key ++ recordKeyValueDelimeter :: r.value := by
    show (u32le (recordLen r.key r.value) ++ r.key
        ++ [recordKeyValueDelimeter] ++ r.value).drop recordLengthSize = _
    simp [u32le, recordLengthSize, List.append_assoc]
  have h1 : (r.key ++ recordKeyValueDelimeter :: r.value).take r.key.length = r.key :=
    List.take_left r.key _
  have h2 : (r.key ++ recordKeyValueDelimeter :: r.value).drop (r.key.length + 1)
      = r.value := by
    rw [← List.drop_drop, List.drop_left]
    simp
  simp only [decode, hdrop, findIdx_sep r.key r.value 0 hk, Nat.zero_add, h1, h2]

/-- Closed witness for `codec_roundtrip` at the record `{key := "name",
value := "Bob"}`, whose key contains no 0x00 byte. -/
theorem codec_roundtrip_witness :
    decode (encode { key := [110, 97, 109, 101], value := [66, 111, 98], order := 0 })
      = some { key := [110, 97, 109, 101], value := [66, 111, 98], order := 0 } :=
  (codec_roundtrip { key := [110, 97, 109, 101], value := [66, 111, 98], order := 0 }
    (by decide)).1

end HastyDB

namespace HastyDB

/-! ## Memtable

The `internal/index.Memtable` implementation is not part of src/ (only its
callers and tests are), so it is modelled from the spec. -/

/-- Modelled from the spec: the missing `internal/index.Memtable`.
§3 "Memtable": an ordered mapping from key to value, keys unique, supporting
insert-or-replace, point lookup, and an enumeration of keys in sorted order;
§4.D: `set(key, value)` insert-or-replace, `get(key) → value or absent`
(Go callers receive the nil slice when absent), `keys()` sorted ascending.
Embedded as a key-sorted association list; a stored value is a Go `[]byte`
which may itself be nil (`none`). -/
def Memtable := List (Bytes × GoBytes)
deriving DecidableEq

/-- Modelled from the spec: `Memtable.Set`, insert-or-replace keeping keys
in ascending order. -/
def memSet : Memtable → Bytes → GoBytes → Memtable
  | [], k, v => [(k, v)]
  | (k0, v0) :: rest, k, v =>
    if keyLtB k k0 then (k, v) :: (k0, v0) :: rest
    else if k = k0 then (k, v) :: rest
    else (k0, v0) :: memSet rest k v

/-- Modelled from the spec: `Memtable.Get`, point lookup returning the Go
nil slice (`none`) when the key is absent. -/
def memGet : Memtable → Bytes → GoBytes
  | [], _ => none
  | (k0, v0) :: rest, k => if k = k0 then v0 else memGet rest k

/-- Modelled from the spec: `Memtable.Keys`, ascending key enumeration. -/
def memKeys (m : Memtable) : List Bytes := m.map Prod.fst

/-! ## Segment files and the database state -/

/-- A segment file (src/segment.go): the raw on-disk bytes plus the
in-memory key → byte-offset-of-length-prefix index (a Go map, embedded as
an association list). -/
structure Segment where
  file : Bytes
  index : List (Bytes × Nat)
deriving DecidableEq

/-- Go map lookup on a segment index. -/
def idxLookup : List (Bytes × Nat) → Bytes → Option Nat
  | [], _ => none
  | (k0, off) :: rest, k => if k = k0 then some off else idxLookup rest k

/-- Errors and modelled runtime panics on the read path. -/
inductive DBErr where
  /-- `ErrKeyNotFound` from src/error.go. -/
  | keyNotFound
  /-- an I/O failure (here: `ReadAt` finding fewer bytes than requested). -/
  | ioError
  /-- the panic of `db.segments.Load().([]*segment)` when the
  `atomic.Value` has never been stored. -/
  | panicNilSegments
  /-- the panic of dereferencing the nil record `decode` returns for a
  malformed buffer. -/
  | panicNilRecord
deriving DecidableEq, Repr

/-- Little-endian bytes to `Nat` (`binary.LittleEndian.Uint32`). -/
def leToNat : Bytes → Nat
  | [] => 0
  | b :: rest => b + 256 * leToNat rest

/-- `segment.ReadRecord` from src/segment.go: read the 4-byte length at
`offset`, then read `length` bytes starting at `offset` and decode.
`ReadAt` errors when fewer bytes than requested are available. -/
def readRecord (s : Segment) (offset : Nat) : Except DBErr (Option Rec) :=
  if s.file.length < offset + recordLengthSize then Except.error DBErr.ioError
  else
    let blen := leToNat ((s.file.drop offset).take recordLengthSize)
    if s.file.length < offset + blen then Except.error DBErr.ioError
    else Except.ok (decode ((s.file.drop offset).take blen))

/-- The database state (src/hastydb.go `DB`): the active memtable, the
optional flushing memtable, the segment-list `atomic.Value` (`none` when it
has never been stored — as after `Open`, which never initializes it), and
the WAL file contents on disk. -/
structure DBState where
  memtable : Memtable
  flushingMemtable : Option Memtable
  segments : Option (List Segment)
  walFile : Bytes
deriving DecidableEq

/-- The segment-probing loop of `DB.Get` (src/hastydb.go lines 138-151):
probe each segment's in-memory index newest-first; on the first hit read
the record at the stored offset and return its value (Go would dereference
a nil record if `decode` failed); if no index has the key, `ErrKeyNotFound`. -/
def segmentsGet (ss : List Segment) (key : Bytes) : Except DBErr GoBytes :=
  match ss with
  | [] => Except.error DBErr.keyNotFound
  | s :: rest =>
    match idxLookup s.index key with
    | some offset =>
      match readRecord s offset with
      | Except.error e => Except.error e
      | Except.ok none => Except.error DBErr.panicNilRecord
      | Except.ok (some rec) => Except.ok (some rec.value)
    | none => segmentsGet rest key

/-- `DB.Get` from src/hastydb.go: probe the active memtable; if that gave
nil and a flushing memtable is present, probe it; a non-nil value is
returned directly; otherwise load the segment list (`Load().([]*segment)`
panics when the `atomic.Value` was never stored) and probe the segments. -/
def dbGet (db : DBState) (key : Bytes) : Except DBErr GoBytes :=
  let value := memGet db.memtable key
  let value := match value, db.flushingMemtable with
    | none, some fm => memGet fm key
    | v, _ => v
  match value with
  | some v => Except.ok (some v)
  | none =>
    match db.segments with
    | none => Except.error DBErr.panicNilSegments
    | some ss => segmentsGet ss key

/-- `DB.Set` from src/hastydb.go: insert into the active memtable under the
write lock, then append the encoded record to the WAL (and fsync).  The
size-threshold notification to the flush actor only posts on a channel; the
flush actor itself is modelled separately. -/
def dbSet (db : DBState) (key : Bytes) (value : GoBytes) : DBState :=
  { db with
    memtable := memSet db.memtable key value
    walFile := db.walFile ++ encode { key := key, value := value.getD [], order := 0 } }

/-- `Open` from src/hastydb.go (lines 44-101), given the WAL bytes found on
disk: the read-only WAL handle is opened and immediately closed without a
single read (the "Recover from WAL file and then truncate it..." comment has
no corresponding code), the append-only handle keeps the existing file
contents (`O_APPEND|O_CREATE|O_WRONLY`), the memtable starts empty
(`&index.Memtable{}`), and the `db.segments` `atomic.Value` is never
stored. -/
def openDB (walOnDisk : Bytes) : DBState :=
  { memtable := []
    flushingMemtable := none
    segments := none
    walFile := walOnDisk }

end HastyDB

namespace HastyDB

/-! ## Flush actor (src/unnamed/part_005) -/

/-- `sstableWriter.write` from src/unnamed/part_005: iterate the memtable's
keys in ascending order and encode `record{key, bst.Get(key)}` for each;
the segment's `index` map is never touched here. -/
def sstWrite (m : Memtable) : Bytes :=
  (memKeys m).foldl
    (fun acc k => acc ++ encode { key := k, value := (memGet m k).getD [], order := 0 }) []

/-- `sstableWriter.flush` from src/unnamed/part_005 (lines 61-100): publish
the current memtable as the flushing memtable and install a fresh active
one; create a new write-only segment (whose `index` map is left nil — no
code populates it) and write the flushing memtable into its file; load the
segment list (`Load().([]*segment)` panics when the `atomic.Value` was
never stored, as after `Open`) and store a new list with the new segment at
its head; truncate the WAL; clear the flushing-memtable pointer.
(The fixed segment name `seg0` would collide on a second flush;
the successful-creation path is modelled.) -/
def dbFlush (db : DBState) : Except DBErr DBState :=
  let fm := db.memtable
  let seg : Segment := { file := sstWrite fm, index := [] }
  match db.segments with
  | none => Except.error DBErr.panicNilSegments
  | some current =>
    Except.ok { memtable := []
                flushingMemtable := none
                segments := some (seg :: current)
                walFile := [] }

/-! ## Actor notification handling (src/unnamed/part_002 and part_005)

Both actors are single goroutines whose `Run` loop is the only code that
touches their weighted semaphore, acquiring and releasing it within one
loop iteration; `Notify` is a blocking send on the unbuffered `notif`
channel, so a notification fired at a busy actor parks its sender and is
received — not dropped — once the actor returns to `select`. -/

/-- The weighted-semaphore state of an actor: whether the single unit is
currently held. -/
structure ActorState where
  semHeld : Bool
deriving DecidableEq

/-- One iteration of `segmentMerger.Run`'s notification case
(src/unnamed/part_002 lines 35-48): `TryAcquire(1)` — which fails only when
the unit is held — immediately followed by `Release(1)`.  `merge` is never
called, and the database state is untouched. -/
def mergerHandleNotif (a : ActorState) (db : DBState) : ActorState × DBState :=
  if a.semHeld then (a, db)
  else
    let acquired : ActorState := { semHeld := true }
    let released : ActorState := { acquired with semHeld := false }
    (released, db)

/-- `segmentMerger.Run` receiving `n` notifications in sequence. -/
def mergerRun (a : ActorState) (db : DBState) : Nat → ActorState × DBState
  | 0 => (a, db)
  | n + 1 =>
    let step := mergerHandleNotif a db
    mergerRun step.1 step.2 n

/-- `sstableWriter.Run` (src/unnamed/part_005 lines 35-52) receiving `n`
pending notifications in sequence: each received notification finds the
semaphore free (`TryAcquire` is only ever issued by this loop itself, which
released the unit before returning to `select`), so each performs one full
unit of flush work.  Returns the number of flush units performed. -/
def sstRunFlushCount : Nat → Bool → Nat
  | 0, _ => 0
  | n + 1, held => if held then sstRunFlushCount n held else 1 + sstRunFlushCount n false

end HastyDB

namespace HastyDB

/-! ## Helper lemmas about the memtable and the read path -/

theorem keyLtB_irrefl (k : Bytes) : keyLtB k k = false := by
  induction k with
  | nil => rfl
  | cons a as ih => simp [keyLtB, ih]

theorem memGet_memSet_self (m : Memtable) (k : Bytes) (v : GoBytes) :
    memGet (memSet m k v) k = v := by
  induction m with
  | nil => simp [memSet, memGet]
  | cons p rest ih =>
    obtain ⟨k0, v0⟩ := p
    by_cases hlt : keyLtB k k0
    · simp [memSet, hlt, memGet]
    · by_cases heq : k = k0
      · subst heq
        simp [memSet, keyLtB_irrefl, memGet]
      · simp [memSet, hlt, heq, memGet, ih]

theorem memGet_memSet_ne (m : Memtable) (k k2 : Bytes) (v : GoBytes) (hne : k2 ≠ k) :
    memGet (memSet m k v) k2 = memGet m k2 := by
  induction m with
  | nil => simp [memSet, memGet, hne]
  | cons p rest ih =>
    obtain ⟨k0, v0⟩ := p
    by_cases hlt : keyLtB k k0
    · simp [memSet, hlt, memGet, hne]
    · by_cases heq : k = k0
      · subst heq
        simp [memSet, keyLtB_irrefl, memGet, hne]
      · simp [memSet, hlt, heq, memGet, ih]

/-- `readRecord` returns a record, an I/O error, or a malformed buffer; it
never reports a key miss. -/
theorem readRecord_ne_keyNotFound (s : Segment) (offset : Nat) :
    readRecord s offset ≠ Except.error DBErr.keyNotFound := by
  simp only [readRecord]
  split
  · simp
  · split <;> simp

/-- `segmentsGet` misses with `ErrKeyNotFound` exactly when no probed
segment's index contains the key. -/
theorem segmentsGet_eq_keyNotFound_iff (ss : List Segment) (k : Bytes) :
    segmentsGet ss k = Except.error DBErr.keyNotFound ↔
      ∀ s ∈ ss, idxLookup s.index k = none := by
  induction ss with
  | nil => simp [segmentsGet]
  | cons s rest ih =>
    constructor
    · intro h
      rw [segmentsGet] at h
      cases hidx : idxLookup s.index k with
      | some offset =>
        simp only [hidx] at h
        exfalso
        cases hrr : readRecord s offset with
        | error e =>
          simp only [hrr] at h
          injection h with h2
          subst h2
          exact readRecord_ne_keyNotFound s offset hrr
        | ok orec =>
          cases orec with
          | none => simp only [hrr] at h; exact absurd h (by simp)
          | some rec => simp only [hrr] at h; exact absurd h (by simp)
      | none =>
        simp only [hidx] at h
        intro t ht
        rcases List.mem_cons.mp ht with h1 | h2
        · subst h1; exact hidx
        · exact (ih.mp h) t h2
    · intro h
      rw [segmentsGet]
      have hs : idxLookup s.index k = none := h s (List.mem_cons_self s rest)
      rw [hs]
      exact ih.mpr fun t ht => h t (List.mem_cons_of_mem s ht)

end HastyDB

namespace HastyDB

/-! ## Claims about Open, Set, Get, flush and the actors -/

/-- **C1** (code bug in `Open`): after `Set("a","1")` the WAL holds the
encoded record, but reopening the database leaves the recovered memtable
empty — `Open` opens the read-only WAL handle and closes it again without
replaying a single record — and `Get("a")` does not return `"1"`: the read
misses both memtables and then hits the panic of loading the never-stored
segment list (it would report `ErrKeyNotFound` were the list installed). -/
theorem open_does_not_replay_wal :
    (openDB (encode { key := [97], value := [49], order := 0 })).memtable = [] ∧
    (openDB (encode { key := [97], value := [49], order := 0 })).walFile ≠ [] ∧
    dbGet (openDB (encode { key := [97], value := [49], order := 0 })) [97]
      = Except.error DBErr.panicNilSegments := by
  refine ⟨rfl, by decide, rfl⟩

/-- **C2** (code bug in `flush`): starting from a database whose active
memtable holds `k ↦ v` and whose segment list is installed (and empty), a
completed flush publishes the new segment with an empty index — nothing on
the flush path ever populates `segment.index` — and clears the
flushing-memtable pointer, after which `Get k` returns `ErrKeyNotFound`:
the key does not stay visible once the flush completes. -/
theorem flush_loses_key_visibility :
    dbFlush { memtable := [([107], some [118])]
              flushingMemtable := none
              segments := some []
              walFile := encode { key := [107], value := [118], order := 0 } }
      = Except.ok { memtable := []
                    flushingMemtable := none
                    segments := some [{ file := sstWrite [([107], some [118])], index := [] }]
                    walFile := [] } ∧
    dbGet { memtable := []
            flushingMemtable := none
            segments := some [{ file := sstWrite [([107], some [118])], index := [] }]
            walFile := [] } [107]
      = Except.error DBErr.keyNotFound := by
  exact ⟨rfl, rfl⟩

/-- **C4** (code bug in `segmentMerger.Run`): a notification received by
the idle merger performs no merge unit of work at all — for any database
state and any number of received notifications the database (in particular
its segment list) is left untouched and the semaphore ends free; the
`merge` method is unreachable from `Run`. -/
theorem merger_notification_does_nothing (a : ActorState) (db : DBState) (n : Nat) :
    (mergerRun a db n).2 = db ∧ (mergerHandleNotif { semHeld := false } db).2 = db := by
  constructor
  · induction n generalizing a with
    | zero => rfl
    | succ m ih =>
      show (mergerRun (mergerHandleNotif a db).1 (mergerHandleNotif a db).2 m).2 = db
      have hdb : (mergerHandleNotif a db).2 = db := by
        unfold mergerHandleNotif
        split <;> rfl
      rw [hdb]
      exact ih _
  · rfl

/-- **C8** (code bug in `sstableWriter.Run`/`Notify`): notifications fired
at a busy flush actor are queued (their senders block on the unbuffered
channel), not dropped — the actor's semaphore is only ever taken by its own
loop, so `TryAcquire` always succeeds — and every received notification
performs one full unit of flush work: `n` pending notifications cause `n`
units, and already two notifications exceed the claimed at-most-one extra
unit. -/
theorem busy_actor_notifications_not_coalesced :
    (∀ n : Nat, sstRunFlushCount n false = n) ∧
    sstRunFlushCount 2 false = 2 ∧ ¬(sstRunFlushCount 2 false ≤ 1) := by
  refine ⟨?_, rfl, by decide⟩
  intro n
  induction n with
  | zero => rfl
  | succ m ih => simp [sstRunFlushCount, ih, Nat.add_comm]

end HastyDB

namespace HastyDB

/-! ## Read-your-writes (C5) -/

/-- Apply a sequence of `Set` operations. -/
def applySets (db : DBState) : List (Bytes × GoBytes) → DBState
  | [] => db
  | (k, v) :: rest => applySets (dbSet db k v) rest

/-- The value of the most recent `Set` on `k` within a sequence of `Set`
operations (later list elements are more recent). -/
def lastSetValue (ops : List (Bytes × GoBytes)) (k : Bytes) : Option GoBytes :=
  match ops with
  | [] => none
  | (k0, v0) :: rest =>
    match lastSetValue rest k with
    | some v => some v
    | none => if k0 = k then some v0 else none

theorem memGet_applySets (db : DBState) (ops : List (Bytes × GoBytes)) (k : Bytes) :
    memGet (applySets db ops).memtable k
      = match lastSetValue ops k with
        | some v => v
        | none => memGet db.memtable k := by
  induction ops generalizing db with
  | nil => rfl
  | cons p rest ih =>
    obtain ⟨k0, v0⟩ := p
    rw [applySets, ih (dbSet db k0 v0)]
    cases hrest : lastSetValue rest k with
    | some v => simp [lastSetValue, hrest]
    | none =>
      simp only [lastSetValue, hrest]
      by_cases hk : k0 = k
      · subst hk
        simp [dbSet, memGet_memSet_self]
      · simp [dbSet, hk, memGet_memSet_ne _ _ _ _ (fun h => hk h.symm)]

theorem applySets_flushing (db : DBState) (ops : List (Bytes × GoBytes)) :
    (applySets db ops).flushingMemtable = db.flushingMemtable := by
  induction ops generalizing db with
  | nil => rfl
  | cons p rest ih =>
    obtain ⟨k0, v0⟩ := p
    rw [applySets, ih (dbSet db k0 v0)]
    rfl

/-- **C5** (counterexample): the claim fails as stated on two concrete
executions. (a) `Set("x", nil)` followed by `Get("x")` does not return the
nil value it was most recently set to: it reports `ErrKeyNotFound`.
(b) With a flush between `Set("x","1")` and `Get("x")`, the `Get` also
reports `ErrKeyNotFound` instead of `"1"`. -/
theorem read_your_writes_counterexample :
    dbGet (applySets { memtable := [], flushingMemtable := none,
                       segments := some [], walFile := [] } [([120], none)]) [120]
      = Except.error DBErr.keyNotFound ∧
    dbFlush (applySets { memtable := [], flushingMemtable := none,
                         segments := some [], walFile := [] } [([120], some [49])])
      = Except.ok { memtable := []
                    flushingMemtable := none
                    segments := some [{ file := sstWrite [([120], some [49])], index := [] }]
                    walFile := [] } ∧
    dbGet { memtable := []
            flushingMemtable := none
            segments := some [{ file := sstWrite [([120], some [49])], index := [] }]
            walFile := [] } [120]
      = Except.error DBErr.keyNotFound := by
  exact ⟨rfl, rfl, rfl⟩

/-- **C5** (amended): for every sequence of `Set(k_i, v_i)` operations in
which the most recent `Set` on `k` carries a non-nil value `v` and with no
flush between that `Set` and the `Get`, `Get(k)` returns `v`, from any
starting state. -/
theorem read_your_writes (db : DBState) (ops : List (Bytes × GoBytes))
    (k : Bytes) (v : Bytes) (hlast : lastSetValue ops k = some (some v)) :
    dbGet (applySets db ops) k = Except.ok (some v) := by
  have hm := memGet_applySets db ops k
  rw [hlast] at hm
  rcases hf : (applySets db ops).flushingMemtable with _ | fm <;>
    simp [dbGet, hm, hf]

/-- Closed witness for `read_your_writes`: `Set("x","1"); Set("x","2");
Get("x")` returns `"2"` on a freshly opened database. -/
theorem read_your_writes_witness :
    dbGet (applySets (openDB []) [([120], some [49]), ([120], some [50])]) [120]
      = Except.ok (some [50]) :=
  read_your_writes (openDB []) [([120], some [49]), ([120], some [50])] [120] [50]
    (by decide)

end HastyDB

namespace HastyDB

/-! ## Get probe order and KeyNotFound (C7), nil values (C10) -/

/-- The probe order the spec describes for `Get` (§4.H): active memtable
first, then the flushing memtable if present, then the segments newest to
oldest; the first store holding a (non-nil) value for the key wins. -/
def specProbeGet (db : DBState) (ss : List Segment) (k : Bytes) :
    Except DBErr GoBytes :=
  match memGet db.memtable k with
  | some v => Except.ok (some v)
  | none =>
    match db.flushingMemtable with
    | some fm =>
      match memGet fm k with
      | some v => Except.ok (some v)
      | none => segmentsGet ss k
    | none => segmentsGet ss k

/-- **C7** (counterexample): the claim fails as stated on two concrete
states. (a) A memtable that contains the key `k` (mapped to the nil value)
while `Get k` nevertheless returns `ErrKeyNotFound` — so `KeyNotFound` does
not imply that no memtable contains the key. (b) On a freshly opened
database nothing contains the key, yet `Get` does not return
`ErrKeyNotFound`: it panics loading the never-stored segment list. -/
theorem get_keyNotFound_iff_counterexample :
    (([107], (none : GoBytes)) ∈ ([([107], none)] : Memtable) ∧
      dbGet { memtable := [([107], none)]
              flushingMemtable := none
              segments := some []
              walFile := [] } [107] = Except.error DBErr.keyNotFound) ∧
    ((openDB []).memtable = [] ∧ (openDB []).flushingMemtable = none ∧
      dbGet (openDB []) [107] = Except.error DBErr.panicNilSegments) := by
  exact ⟨⟨by decide, rfl⟩, rfl, rfl, rfl⟩

/-- **C7** (amended): provided the segment list has been installed, `Get`
follows the probe order — active memtable, then flushing memtable if
present, then the segments in list order, first non-nil hit wins — and
returns `ErrKeyNotFound` if and only if neither memtable holds a non-nil
value for the key and no segment's in-memory index contains it. -/
theorem get_probe_order_and_keyNotFound (db : DBState) (ss : List Segment)
    (k : Bytes) (hseg : db.segments = some ss) :
    dbGet db k = specProbeGet db ss k ∧
    (dbGet db k = Except.error DBErr.keyNotFound ↔
      memGet db.memtable k = none ∧
      (∀ fm, db.flushingMemtable = some fm → memGet fm k = none) ∧
      ∀ s ∈ ss, idxLookup s.index k = none) := by
  cases hm : memGet db.memtable k with
  | some v =>
    rcases hf : db.flushingMemtable with _ | fm <;>
      simp [dbGet, specProbeGet, hm, hf]
  | none =>
    rcases hf : db.flushingMemtable with _ | fm
    · simp [dbGet, specProbeGet, hm, hf, hseg, segmentsGet_eq_keyNotFound_iff]
    · cases hfm : memGet fm k with
      | some v => simp [dbGet, specProbeGet, hm, hf, hfm]
      | none =>
        simp [dbGet, specProbeGet, hm, hf, hfm, hseg, segmentsGet_eq_keyNotFound_iff]

/-- Closed witness for `get_probe_order_and_keyNotFound` on a state with an
installed empty segment list and a memtable holding `"a" ↦ "1"`. -/
theorem get_probe_order_and_keyNotFound_witness :
    dbGet { memtable := [([97], some [49])]
            flushingMemtable := none
            segments := some []
            walFile := [] } [97]
      = specProbeGet { memtable := [([97], some [49])]
                       flushingMemtable := none
                       segments := some []
                       walFile := [] } [] [97] ∧
    ¬(dbGet { memtable := [([97], some [49])]
              flushingMemtable := none
              segments := some []
              walFile := [] } [97] = Except.error DBErr.keyNotFound) :=
  have h := get_probe_order_and_keyNotFound
    { memtable := [([97], some [49])]
      flushingMemtable := none
      segments := some []
      walFile := [] } [] [97] rfl
  ⟨h.1, fun hc => by
    have h2 := h.2.mp hc
    simp [memGet] at h2⟩

/-- **C10.** After `Set(k, nil)`, `Get(k)` does not return the nil value:
`Get` uses nil as its in-band absence marker, treats the key as missing
from the memtables, falls through to the segment list, and — when no
segment index holds the key (and the flushing memtable, if any, does not
hold it either) — returns `ErrKeyNotFound`. -/
theorem set_nil_value_reads_as_absent (db : DBState) (ss : List Segment)
    (k : Bytes) (hseg : db.segments = some ss)
    (hflush : ∀ fm, db.flushingMemtable = some fm → memGet fm k = none)
    (hnoseg : ∀ s ∈ ss, idxLookup s.index k = none) :
    dbGet (dbSet db k none) k = Except.error DBErr.keyNotFound := by
  have hm : memGet (dbSet db k none).memtable k = none := by
    show memGet (memSet db.memtable k none) k = none
    exact memGet_memSet_self db.memtable k none
  have hsg : segmentsGet ss k = Except.error DBErr.keyNotFound :=
    (segmentsGet_eq_keyNotFound_iff ss k).mpr hnoseg
  rcases hf : db.flushingMemtable with _ | fm
  · simp [dbGet, dbSet, memGet_memSet_self, hf, hseg, hsg]
  · have hfm : memGet fm k = none := hflush fm hf
    simp [dbGet, dbSet, memGet_memSet_self, hf, hfm, hseg, hsg]
  
/-- Closed witness for `set_nil_value_reads_as_absent` on a freshly opened
database whose segment list has been installed and is empty. -/
theorem set_nil_value_reads_as_absent_witness :
    dbGet (dbSet { memtable := [], flushingMemtable := none,
                   segments := some [], walFile := [] } [120] none) [120]
      = Except.error DBErr.keyNotFound :=
  set_nil_value_reads_as_absent
    { memtable := [], flushingMemtable := none, segments := some [], walFile := [] }
    [] [120] rfl (by intro fm h; cases h) (by intro s h; cases h)

end HastyDB

namespace HastyDB

/-! ## The indexed min-heap and k-way merge (src/unnamed/part_002) -/

/-- `greater` from src/unnamed/part_002 (lines 202-210), at the record
level: `a` is greater than `b` when `a.key > b.key`, or the keys are equal
and `a.order > b.order`. -/
def recGreaterB (a b : Rec) : Bool :=
  if keyLtB b.key a.key then true
  else if a.key = b.key then decide (b.order < a.order)
  else false

/-- Pointwise update of a function, embedding a Go array store. -/
def upd {α : Type} (f : Nat → α) (i : Nat) (v : α) : Nat → α :=
  fun j => if j = i then v else f j

/-- `indexMinHeap` from src/unnamed/part_002.  The Go arrays (allocated
with capacity `len(streams)+1`) are embedded as total functions; `insert`
is only ever called with at most one live record per stream, so capacity
is never exceeded.  `pq` is the 1-based binary heap of stream indices,
`qp` its write-only inverse (`-1` when absent), and `items i` the record
currently held for stream `i` (`none` embeds Go's nil). -/
structure IndexMinHeap where
  n : Nat
  pq : Nat → Nat
  qp : Nat → Int
  items : Nat → Option Rec

/-- `newIndexMinHeap`: an empty heap; every `qp` slot is initialized
to -1. -/
def newIndexMinHeap : IndexMinHeap :=
  { n := 0, pq := fun _ => 0, qp := fun _ => -1, items := fun _ => none }

/-- The record at heap position `p`: Go `h.items[h.pq[p]]`, which the
source only dereferences at populated positions (`Option.getD`
totalizes the nil case). -/
def recAtD (h : IndexMinHeap) (p : Nat) : Rec :=
  (h.items (h.pq p)).getD { key := [], value := [], order := 0 }

/-- `greater(i, j)` on heap positions. -/
def greaterAt (h : IndexMinHeap) (i j : Nat) : Bool :=
  recGreaterB (recAtD h i) (recAtD h j)

/-- `exchange`: swap positions `i` and `j` of `pq`, then store the new
inverse entries `qp[pq[i]] = i` and `qp[pq[j]] = j` in that order. -/
def exchange (h : IndexMinHeap) (i j : Nat) : IndexMinHeap :=
  let a := h.pq i
  let b := h.pq j
  let pq2 := upd (upd h.pq i b) j a
  { h with pq := pq2
           qp := upd (upd h.qp (pq2 i) (Int.ofNat i)) (pq2 j) (Int.ofNat j) }

theorem recGreaterB_irrefl (a : Rec) : recGreaterB a a = false := by
  simp [recGreaterB, keyLtB_irrefl]

/-- `swim`: while the parent is greater, exchange upward. -/
def swim (h : IndexMinHeap) (k : Nat) : IndexMinHeap :=
  if hk : 1 < k ∧ greaterAt h (k / 2) k then swim (exchange h k (k / 2)) (k / 2)
  else h
termination_by k
decreasing_by exact Nat.div_lt_self (by omega) (by omega)

/-- The child `sink` steps to: `j := 2*k`, bumped to `j+1` when that right
child exists and `greater(j, j+1)`. -/
def sinkChild (h : IndexMinHeap) (k : Nat) : Nat :=
  if 2 * k < h.n ∧ greaterAt h (2 * k) (2 * k + 1) then 2 * k + 1 else 2 * k

/-- `sink`: while a child exists, pick the smaller child; stop when the
node is not greater than it, else exchange downward. -/
def sink (h : IndexMinHeap) (k : Nat) : IndexMinHeap :=
  if h2k : 2 * k ≤ h.n then
    if hg : greaterAt h k (sinkChild h k) then
      sink (exchange h k (sinkChild h k)) (sinkChild h k)
    else h
  else h
termination_by h.n + 1 - k
decreasing_by
  have hn : (exchange h k (sinkChild h k)).n = h.n := rfl
  rw [hn]
  have hj : k < sinkChild h k := by
    rcases Nat.eq_zero_or_pos k with hk0 | hk1
    · subst hk0
      by_cases hc : 2 * 0 < h.n ∧ greaterAt h (2 * 0) (2 * 0 + 1)
      · rw [sinkChild, if_pos hc]
        omega
      · exfalso
        rw [sinkChild, if_neg hc] at hg
        rw [greaterAt] at hg
        simp only [Nat.mul_zero] at hg
        rw [recGreaterB_irrefl] at hg
        simp at hg
    · rw [sinkChild]
      split <;> omega
  omega

/-- `Insert`: `n++; qp[i] = n; pq[n] = i; items[i] = item; swim(n)`. -/
def heapInsert (h : IndexMinHeap) (i : Nat) (item : Rec) : IndexMinHeap :=
  let h2 : IndexMinHeap :=
    { n := h.n + 1
      pq := upd h.pq (h.n + 1) i
      qp := upd h.qp i (Int.ofNat (h.n + 1))
      items := upd h.items i (some item) }
  swim h2 (h.n + 1)

/-- `Min`: take the smallest item off the top, returning the Go results
`(indexOfMin, item)` — `(-1, nil)` on an empty heap — together with the
updated heap: exchange the root with the last position, shrink, sink the
root, then blank `items[indexOfMin]` and `qp[indexOfMin]`.  (The source
additionally blanks the dead slot `pq[n+1]` with -1; that store is never
read before being overwritten and `pq` is `Nat`-valued here, so it is
elided.) -/
def heapMin (h : IndexMinHeap) : Int × Option Rec × IndexMinHeap :=
  if h.n = 0 then (-1, none, h)
  else
    let indexOfMin := h.pq 1
    let m := h.items indexOfMin
    let h2 := exchange h 1 h.n
    let h3 := sink { h2 with n := h2.n - 1 } 1
    let h4 := { h3 with items := upd h3.items indexOfMin none
                        qp := upd h3.qp indexOfMin (-1) }
    (Int.ofNat indexOfMin, m, h4)

end HastyDB

namespace HastyDB

theorem exchange_n (h : IndexMinHeap) (i j : Nat) : (exchange h i j).n = h.n := rfl

theorem exchange_items (h : IndexMinHeap) (i j : Nat) :
    (exchange h i j).items = h.items := rfl

theorem swim_n (h : IndexMinHeap) (k : Nat) : (swim h k).n = h.n := by
  induction h, k using swim.induct with
  | case1 h k hk ih => rw [swim, dif_pos hk]; rw [ih]; rfl
  | case2 h k hk => rw [swim, dif_neg hk]

theorem swim_items (h : IndexMinHeap) (k : Nat) : (swim h k).items = h.items := by
  induction h, k using swim.induct with
  | case1 h k hk ih => rw [swim, dif_pos hk]; rw [ih]; rfl
  | case2 h k hk => rw [swim, dif_neg hk]

theorem sink_n (h : IndexMinHeap) (k : Nat) : (sink h k).n = h.n := by
  induction h, k using sink.induct with
  | case1 h k h2k hg ih => rw [sink, dif_pos h2k, dif_pos hg]; rw [ih]; rfl
  | case2 h k h2k hg => rw [sink, dif_pos h2k, dif_neg hg]
  | case3 h k h2k => rw [sink, dif_neg h2k]

theorem sink_items (h : IndexMinHeap) (k : Nat) : (sink h k).items = h.items := by
  induction h, k using sink.induct with
  | case1 h k h2k hg ih => rw [sink, dif_pos h2k, dif_pos hg]; rw [ih]; rfl
  | case2 h k h2k hg => rw [sink, dif_pos h2k, dif_neg hg]
  | case3 h k h2k => rw [sink, dif_neg h2k]

theorem heapInsert_n (h : IndexMinHeap) (i : Nat) (x : Rec) :
    (heapInsert h i x).n = h.n + 1 := by
  rw [heapInsert, swim_n]

theorem heapMin_n (h : IndexMinHeap) (hn : h.n ≠ 0) :
    (heapMin h).2.2.n = h.n - 1 := by
  rw [heapMin, if_neg hn]
  show (sink { exchange h 1 h.n with n := (exchange h 1 h.n).n - 1 } 1).n = h.n - 1
  rw [sink_n]
  rfl

/-- Total number of records left in the input streams. -/
def sumLens (ss : List (List Rec)) : Nat := (ss.map List.length).sum

theorem sumLens_set (ss : List (List Rec)) (i : Nat) (x : List Rec)
    (hi : i < ss.length) :
    sumLens (ss.set i x) + (ss.getD i []).length = sumLens ss + x.length := by
  induction ss generalizing i with
  | nil => simp at hi
  | cons s rest ih =>
    cases i with
    | zero => simp [sumLens, List.set]; omega
    | succ m =>
      have hm : m < rest.length := by simpa using hi
      have := ih m hm
      simp only [sumLens, List.set, List.map_cons, List.sum_cons, List.getD_cons_succ] at *
      omega

/-- The main loop of `mergeStreams` (src/unnamed/part_002 lines 103-131):
pop the heap minimum; emit `prev` when the key changes (compaction keeps
only the last version of a key, by mutating `prev.value`); refill the heap
from the stream the minimum came from unless it is exhausted.  When the
loop ends the final `encode(out, prev)` dereferences `prev`, which is nil
(`none` result) when no stream ever produced a record. -/
def mergeLoop (h : IndexMinHeap) (ss : List (List Rec))
    (prev : Option Rec) (out : List Rec) : Option (List Rec) :=
  if hn : h.n = 0 then
    match prev with
    | none => none
    | some p => some (out ++ [p])
  else
    match hm : heapMin h with
    | (_, none, _) => none
    | (iInt, some rec, h2) =>
      let prev1 := prev.getD rec
      let st := if prev1.key ≠ rec.key then (out ++ [prev1], rec) else (out, prev1)
      let prev2 := { st.2 with value := rec.value }
      match hs : ss.getD iInt.toNat [] with
      | [] => mergeLoop h2 ss (some prev2) st.1
      | r :: rest =>
        mergeLoop (heapInsert h2 iInt.toNat { r with order := iInt.toNat })
          (ss.set iInt.toNat rest) (some prev2) st.1
termination_by h.n + sumLens ss
decreasing_by
  · have h1 : (heapMin h).2.2.n = h.n - 1 := heapMin_n h hn
    rw [hm] at h1
    simp only at h1
    rw [h1]
    omega
  · have h1 : (heapMin h).2.2.n = h.n - 1 := heapMin_n h hn
    rw [hm] at h1
    simp only at h1
    rw [heapInsert_n, h1]
    have hi : iInt.toNat < ss.length := by
      by_contra hge
      rw [List.getD_eq_default] at hs
      · exact absurd hs (by simp)
      · omega
    have h2 := sumLens_set ss iInt.toNat rest hi
    rw [hs] at h2
    simp only [List.length_cons] at h2
    omega

/-- One step of the initial fill loop of `mergeStreams`: if stream `i`
yields a record, tag it with `order := i` and insert it. -/
def initStep (acc : IndexMinHeap × List (List Rec)) (i : Nat) :
    IndexMinHeap × List (List Rec) :=
  match acc.2.getD i [] with
  | [] => acc
  | r :: rest => (heapInsert acc.1 i { r with order := i }, acc.2.set i rest)

/-- The initial fill loop of `mergeStreams`: for each stream index `i`, if
the stream yields a record, tag it with `order := i` and insert it. -/
def initFill (streams : List (List Rec)) : IndexMinHeap × List (List Rec) :=
  (List.range streams.length).foldl initStep (newIndexMinHeap, streams)

/-- `mergeStreams` from src/unnamed/part_002 (lines 87-138): seed the heap
with each stream's first record, then run the merge loop. -/
def mergeStreams (streams : List (List Rec)) : Option (List Rec) :=
  let st := initFill streams
  mergeLoop st.1 st.2 none []

end HastyDB

namespace HastyDB

/-! ## Order theory for the merge comparison -/

theorem keyLtB_trans {a b c : Bytes} (h1 : keyLtB a b = true)
    (h2 : keyLtB b c = true) : keyLtB a c = true := by
  induction a generalizing b c with
  | nil =>
    cases b with
    | nil => simp [keyLtB] at h1
    | cons y ys =>
      cases c with
      | nil => simp [keyLtB] at h2
      | cons z zs => simp [keyLtB]
  | cons x xs ih =>
    cases b with
    | nil => simp [keyLtB] at h1
    | cons y ys =>
      cases c with
      | nil => simp [keyLtB] at h2
      | cons z zs =>
        rw [keyLtB] at h1 h2 ⊢
        by_cases hxy : x < y
        · by_cases hyz : y < z
          · rw [if_pos (lt_trans hxy hyz)]
          · by_cases hzy : z < y
            · rw [if_neg hyz, if_pos hzy] at h2
              simp at h2
            · have heq : y = z := le_antisymm (not_lt.mp hzy) (not_lt.mp hyz)
              subst heq
              rw [if_pos hxy]
        · by_cases hyx : y < x
          · rw [if_neg hxy, if_pos hyx] at h1
            simp at h1
          · have heq : x = y := le_antisymm (not_lt.mp hyx) (not_lt.mp hxy)
            subst heq
            rw [if_neg hxy, if_neg hyx] at h1
            by_cases hxz : x < z
            · rw [if_pos hxz]
            · by_cases hzx : z < x
              · rw [if_neg hxz, if_pos hzx] at h2
                simp at h2
              · have heq2 : x = z := le_antisymm (not_lt.mp hzx) (not_lt.mp hxz)
                subst heq2
                rw [if_neg hxz, if_neg hzx] at h2 ⊢
                exact ih h1 h2

theorem keyLtB_eq_false_iff {a b : Bytes} :
    keyLtB a b = false ↔ (a = b ∨ keyLtB b a = true) := by
  induction a generalizing b with
  | nil =>
    cases b with
    | nil => simp [keyLtB]
    | cons y ys => simp [keyLtB]
  | cons x xs ih =>
    cases b with
    | nil => simp [keyLtB]
    | cons y ys =>
      rw [keyLtB, keyLtB]
      by_cases hxy : x < y
      · rw [if_pos hxy]
        constructor
        · intro h; simp at h
        · intro h
          rcases h with h | h
          · injection h with h1 h2
            exact absurd h1 (ne_of_lt hxy)
          · rw [if_neg (lt_asymm hxy)] at h
            rw [if_pos hxy] at h
            simp at h
      · by_cases hyx : y < x
        · rw [if_neg hxy, if_pos hyx]
          constructor
          · intro _
            right
            rw [if_pos hyx]
          · intro _; rfl
        · have heq : x = y := le_antisymm (not_lt.mp hyx) (not_lt.mp hxy)
          subst heq
          rw [if_neg hxy, if_neg hxy, if_neg hxy, if_neg hxy]
          rw [ih]
          constructor
          · intro h
            rcases h with h | h
            · left; rw [h]
            · right; exact h
          · intro h
            rcases h with h | h
            · left; injection h
            · right; exact h

theorem keyLtB_asymm {a b : Bytes} (h : keyLtB a b = true) : keyLtB b a = false := by
  by_contra hc
  have h2 : keyLtB b a = true := by
    cases hba : keyLtB b a
    · exact absurd hba hc
    · rfl
  have := keyLtB_trans h h2
  rw [keyLtB_irrefl] at this
  simp at this

theorem keyLtB_ne {a b : Bytes} (h : keyLtB a b = true) : a ≠ b := by
  intro heq
  subst heq
  rw [keyLtB_irrefl] at h
  simp at h

theorem keyLtB_antisymm_eq {a b : Bytes} (h1 : keyLtB a b = false)
    (h2 : keyLtB b a = false) : a = b := by
  rcases keyLtB_eq_false_iff.mp h1 with h | h
  · exact h
  · rw [h] at h2; simp at h2

/-- `keyLtB a b = false` read as `b ≤ a`: transitivity. -/
theorem keyLeB_trans {a b c : Bytes} (h1 : keyLtB b a = false)
    (h2 : keyLtB c b = false) : keyLtB c a = false := by
  rcases keyLtB_eq_false_iff.mp h1 with hba | hab
  · subst hba
    exact h2
  · rcases keyLtB_eq_false_iff.mp h2 with hcb | hbc
    · subst hcb
      exact h1
    · exact keyLtB_eq_false_iff.mpr (Or.inr (keyLtB_trans hab hbc))

theorem recGreaterB_eq_true_iff (a b : Rec) :
    recGreaterB a b = true ↔
      keyLtB b.key a.key = true ∨ (a.key = b.key ∧ b.order < a.order) := by
  rw [recGreaterB]
  by_cases h1 : keyLtB b.key a.key
  · simp [h1]
  · by_cases h2 : a.key = b.key <;> simp [h1, h2]

theorem recGreaterB_eq_false_iff (a b : Rec) :
    recGreaterB a b = false ↔
      keyLtB b.key a.key = false ∧ (a.key = b.key → a.order ≤ b.order) := by
  rw [recGreaterB]
  by_cases h1 : keyLtB b.key a.key
  · simp [h1]
  · by_cases h2 : a.key = b.key <;> simp [h1, h2] <;> omega

/-- Asymmetry: `a > b` precludes `b > a`. -/
theorem recGreaterB_asymm {a b : Rec} (h : recGreaterB a b = true) :
    recGreaterB b a = false := by
  rcases (recGreaterB_eq_true_iff a b).mp h with hk | ⟨hk, ho⟩
  · refine (recGreaterB_eq_false_iff b a).mpr ⟨keyLtB_asymm hk, ?_⟩
    intro heq
    exact absurd heq (keyLtB_ne hk)
  · refine (recGreaterB_eq_false_iff b a).mpr ⟨?_, ?_⟩
    · rw [hk, keyLtB_irrefl]
    · intro _; omega

/-- Transitivity of `≤` (the negation of `greater`). -/
theorem recLeB_trans {a b c : Rec} (h1 : recGreaterB a b = false)
    (h2 : recGreaterB b c = false) : recGreaterB a c = false := by
  obtain ⟨hk1, ho1⟩ := (recGreaterB_eq_false_iff a b).mp h1
  obtain ⟨hk2, ho2⟩ := (recGreaterB_eq_false_iff b c).mp h2
  refine (recGreaterB_eq_false_iff a c).mpr ⟨keyLeB_trans hk1 hk2, ?_⟩
  intro hac
  have hab : a.key = b.key := by
    rcases keyLtB_eq_false_iff.mp hk1 with h | h
    · exact h.symm
    · rcases keyLtB_eq_false_iff.mp hk2 with h2b | h2b
      · rw [hac, h2b]
      · exfalso
        have := keyLtB_trans h h2b
        rw [hac] at this
        rw [keyLtB_irrefl] at this
        simp at this
  have hbc : b.key = c.key := by rw [← hab, hac]
  exact le_trans (ho1 hab) (ho2 hbc)

/-- From `p > x` and `p ≤ v` conclude `x ≤ v`. -/
theorem recLe_of_gt_of_le {p x v : Rec} (h1 : recGreaterB p x = true)
    (h2 : recGreaterB p v = false) : recGreaterB x v = false := by
  obtain ⟨hk2, ho2⟩ := (recGreaterB_eq_false_iff p v).mp h2
  rcases (recGreaterB_eq_true_iff p x).mp h1 with hk | ⟨hk, ho⟩
  · refine (recGreaterB_eq_false_iff x v).mpr ⟨?_, ?_⟩
    · rcases keyLtB_eq_false_iff.mp hk2 with h | h
      · rw [h]
        exact keyLtB_asymm hk
      · exact keyLtB_eq_false_iff.mpr (Or.inr (keyLtB_trans hk h))
    · intro hxv
      exfalso
      rcases keyLtB_eq_false_iff.mp hk2 with h | h
      · rw [← h, hxv] at hk
        rw [keyLtB_irrefl] at hk
        simp at hk
      · have := keyLtB_trans hk h
        rw [hxv] at this
        rw [keyLtB_irrefl] at this
        simp at this
  · refine (recGreaterB_eq_false_iff x v).mpr ⟨?_, ?_⟩
    · rw [← hk]; exact hk2
    · intro hxv
      have hpv : p.key = v.key := by rw [hk, hxv]
      have := ho2 hpv
      omega

/-- From `a ≤ b` and `c > b` conclude `a ≤ c`. -/
theorem recLe_of_le_of_gt {a b c : Rec} (h1 : recGreaterB a b = false)
    (h2 : recGreaterB c b = true) : recGreaterB a c = false := by
  have h3 : recGreaterB b c = false := recGreaterB_asymm h2
  exact recLeB_trans h1 h3

/-- Ties force equal key and order. -/
theorem rec_tie {a b : Rec} (h1 : recGreaterB a b = false)
    (h2 : recGreaterB b a = false) : a.key = b.key ∧ a.order = b.order := by
  obtain ⟨hk1, ho1⟩ := (recGreaterB_eq_false_iff a b).mp h1
  obtain ⟨hk2, ho2⟩ := (recGreaterB_eq_false_iff b a).mp h2
  have hk : a.key = b.key := keyLtB_antisymm_eq hk2 hk1
  exact ⟨hk, le_antisymm (ho1 hk) (ho2 hk.symm)⟩

/-- Strict transitivity. -/
theorem recGreaterB_trans {a b c : Rec} (h1 : recGreaterB a b = true)
    (h2 : recGreaterB b c = true) : recGreaterB a c = true := by
  by_contra hc
  have h3 : recGreaterB a c = false := by
    cases h : recGreaterB a c
    · rfl
    · exact absurd h hc
  have h4 : recGreaterB b c = false := recLe_of_gt_of_le h1 h3
  rw [h4] at h2
  simp at h2

end HastyDB

namespace HastyDB

/-! ## Heap well-formedness -/

/-- Positions 1..n hold pairwise distinct stream indices. -/
def pqInj (h : IndexMinHeap) : Prop :=
  ∀ p q, 1 ≤ p → p ≤ h.n → 1 ≤ q → q ≤ h.n → h.pq p = h.pq q → p = q

/-- Stream index `i` occupies some live heap position. -/
def inPQ (h : IndexMinHeap) (i : Nat) : Prop :=
  ∃ p, 1 ≤ p ∧ p ≤ h.n ∧ h.pq p = i

/-- The heap invariant: distinct positions, `items` populated exactly at
indices on the heap, and the parent-not-greater order property. -/
structure WF (h : IndexMinHeap) : Prop where
  inj : pqInj h
  mem : ∀ i, (h.items i).isSome ↔ inPQ h i
  ord : ∀ p, 2 ≤ p → p ≤ h.n → greaterAt h (p / 2) p = false

theorem exchange_pq (h : IndexMinHeap) (a b x : Nat) :
    (exchange h a b).pq x
      = if x = b then h.pq a else if x = a then h.pq b else h.pq x := by
  simp only [exchange, upd]

theorem exchange_recAtD (h : IndexMinHeap) (a b x : Nat) :
    recAtD (exchange h a b) x
      = if x = b then recAtD h a else if x = a then recAtD h b else recAtD h x := by
  rw [recAtD, exchange_items, exchange_pq]
  split
  · rfl
  · split <;> rfl

theorem exchange_greaterAt (h : IndexMinHeap) (a b x y : Nat) :
    greaterAt (exchange h a b) x y
      = recGreaterB
          (if x = b then recAtD h a else if x = a then recAtD h b else recAtD h x)
          (if y = b then recAtD h a else if y = a then recAtD h b else recAtD h y) := by
  rw [greaterAt, exchange_recAtD, exchange_recAtD]

/-- The position permutation `exchange h a b` applies to `pq`. -/
def posSwap (a b x : Nat) : Nat := if x = b then a else if x = a then b else x

theorem exchange_pq_swap (h : IndexMinHeap) (a b x : Nat) :
    (exchange h a b).pq x = h.pq (posSwap a b x) := by
  rw [exchange_pq, posSwap]
  split
  · rfl
  · split <;> rfl

theorem posSwap_invol (a b x : Nat) : posSwap a b (posSwap a b x) = x := by
  unfold posSwap
  split_ifs <;> omega

theorem posSwap_ge (a b x : Nat) (ha1 : 1 ≤ a) (hb1 : 1 ≤ b) (hx1 : 1 ≤ x) :
    1 ≤ posSwap a b x := by
  unfold posSwap
  split_ifs <;> omega

theorem posSwap_le (a b x n : Nat) (han : a ≤ n) (hbn : b ≤ n) (hxn : x ≤ n) :
    posSwap a b x ≤ n := by
  unfold posSwap
  split_ifs <;> omega

theorem exchange_recAtD_swap (h : IndexMinHeap) (a b x : Nat) :
    recAtD (exchange h a b) x = recAtD h (posSwap a b x) := by
  rw [recAtD, exchange_items, exchange_pq_swap, recAtD]

theorem exchange_inj (h : IndexMinHeap) (a b : Nat)
    (ha1 : 1 ≤ a) (han : a ≤ h.n) (hb1 : 1 ≤ b) (hbn : b ≤ h.n)
    (hinj : pqInj h) : pqInj (exchange h a b) := by
  intro p q hp1 hpn hq1 hqn heq
  rw [exchange_n] at hpn hqn
  rw [exchange_pq_swap, exchange_pq_swap] at heq
  have hs := hinj (posSwap a b p) (posSwap a b q)
    (posSwap_ge a b p ha1 hb1 hp1) (posSwap_le a b p h.n han hbn hpn)
    (posSwap_ge a b q ha1 hb1 hq1) (posSwap_le a b q h.n han hbn hqn) heq
  have h2 := congrArg (posSwap a b) hs
  rw [posSwap_invol, posSwap_invol] at h2
  exact h2

theorem exchange_inPQ (h : IndexMinHeap) (a b : Nat)
    (ha1 : 1 ≤ a) (han : a ≤ h.n) (hb1 : 1 ≤ b) (hbn : b ≤ h.n) (i : Nat) :
    inPQ (exchange h a b) i ↔ inPQ h i := by
  constructor
  · rintro ⟨p, hp1, hpn, hpe⟩
    rw [exchange_n] at hpn
    rw [exchange_pq_swap] at hpe
    exact ⟨posSwap a b p, posSwap_ge a b p ha1 hb1 hp1,
      posSwap_le a b p h.n han hbn hpn, hpe⟩
  · rintro ⟨p, hp1, hpn, hpe⟩
    refine ⟨posSwap a b p, posSwap_ge a b p ha1 hb1 hp1, ?_, ?_⟩
    · rw [exchange_n]
      exact posSwap_le a b p h.n han hbn hpn
    · rw [exchange_pq_swap, posSwap_invol]
      exact hpe

end HastyDB

namespace HastyDB

theorem exchange_greaterAt_swap (h : IndexMinHeap) (a b x y : Nat) :
    greaterAt (exchange h a b) x y
      = greaterAt h (posSwap a b x) (posSwap a b y) := by
  rw [greaterAt, greaterAt, exchange_recAtD_swap, exchange_recAtD_swap]

/-- `swim` restores the heap order, assuming it holds everywhere except at
node `k`, and that `k`'s children are not smaller than `k`'s parent. -/
theorem swim_ord (h : IndexMinHeap) (k : Nat) :
    1 ≤ k → k ≤ h.n → pqInj h →
    (∀ p, 2 ≤ p → p ≤ h.n → p ≠ k → greaterAt h (p / 2) p = false) →
    (∀ c, 2 ≤ c → c ≤ h.n → c / 2 = k → 2 ≤ k → greaterAt h (k / 2) c = false) →
    (∀ p, 2 ≤ p → p ≤ (swim h k).n → greaterAt (swim h k) (p / 2) p = false)
      ∧ pqInj (swim h k) ∧ (∀ i, inPQ (swim h k) i ↔ inPQ h i) := by
  induction h, k using swim.induct with
  | case1 h k hk ih =>
    intro _ hkn hinj ha hb
    obtain ⟨hk2, hgt⟩ := hk
    rw [greaterAt] at hgt
    have hkk2 : k / 2 ≠ k := by omega
    have hk21 : 1 ≤ k / 2 := by omega
    have hk2n : k / 2 ≤ h.n := by omega
    have hσk : posSwap k (k / 2) k = k / 2 := by
      unfold posSwap
      split_ifs <;> omega
    have hσk2 : posSwap k (k / 2) (k / 2) = k := by
      unfold posSwap
      rw [if_pos rfl]
    have hσo : ∀ x, x ≠ k → x ≠ k / 2 → posSwap k (k / 2) x = x := by
      intro x h1 h2
      unfold posSwap
      rw [if_neg h2, if_neg h1]
    have hval : ∀ x, recAtD (exchange h k (k / 2)) x
        = recAtD h (posSwap k (k / 2) x) := fun x => exchange_recAtD_swap h k (k / 2) x
    -- re-establish the two order hypotheses for the exchanged heap
    have ha2 : ∀ p, 2 ≤ p → p ≤ (exchange h k (k / 2)).n → p ≠ k / 2 →
        greaterAt (exchange h k (k / 2)) (p / 2) p = false := by
      intro p hp2 hpn hpk2
      rw [exchange_n] at hpn
      rw [exchange_greaterAt_swap]
      by_cases hpk : p = k
      · subst hpk
        rw [hσk, hσk2]
        rw [greaterAt]
        exact recGreaterB_asymm hgt
      · rw [hσo p hpk hpk2]
        by_cases hq2 : p / 2 = k / 2
        · rw [hq2, hσk2]
          have hle : greaterAt h (p / 2) p = false := ha p hp2 hpn hpk
          rw [hq2] at hle
          rw [greaterAt] at hle ⊢
          exact recLe_of_gt_of_le hgt hle
        · by_cases hqk : p / 2 = k
          · rw [hqk, hσk]
            have := hb p hp2 hpn hqk (by omega)
            exact this
          · rw [hσo (p / 2) hqk hq2]
            exact ha p hp2 hpn hpk
    have hb2 : ∀ c, 2 ≤ c → c ≤ (exchange h k (k / 2)).n → c / 2 = k / 2 →
        2 ≤ k / 2 → greaterAt (exchange h k (k / 2)) (k / 2 / 2) c = false := by
      intro c hc2 hcn hck hk22
      rw [exchange_n] at hcn
      rw [exchange_greaterAt_swap]
      have hq : posSwap k (k / 2) (k / 2 / 2) = k / 2 / 2 := by
        refine hσo _ (by omega) (by omega)
      rw [hq]
      have hak2 : greaterAt h (k / 2 / 2) (k / 2) = false :=
        ha (k / 2) hk22 hk2n hkk2
      by_cases hck' : c = k
      · subst hck'
        rw [hσk]
        exact hak2
      · have hck2 : c ≠ k / 2 := by omega
        rw [hσo c hck' hck2]
        have hc : greaterAt h (k / 2) c = false := by
          have := ha c hc2 hcn hck'
          rw [hck] at this
          exact this
        rw [greaterAt] at hak2 hc ⊢
        exact recLeB_trans hak2 hc
    have hinj2 : pqInj (exchange h k (k / 2)) :=
      exchange_inj h k (k / 2) (by omega) hkn hk21 hk2n hinj
    have ihr := ih (by omega) (by rw [exchange_n]; exact hk2n) hinj2 ha2 hb2
    rw [swim, dif_pos ⟨hk2, hgt⟩]
    refine ⟨ihr.1, ihr.2.1, ?_⟩
    intro i
    rw [ihr.2.2 i]
    exact exchange_inPQ h k (k / 2) (by omega) hkn hk21 hk2n i
  | case2 h k hk =>
    intro hk1 hkn hinj ha _
    rw [swim, dif_neg hk]
    refine ⟨?_, hinj, fun i => Iff.rfl⟩
    intro p hp2 hpn
    by_cases hpk : p = k
    · subst hpk
      rcases Decidable.em (greaterAt h (p / 2) p = true) with hg | hg
      · exact absurd ⟨by omega, hg⟩ hk
      · cases hgb : greaterAt h (p / 2) p
        · rfl
        · exact absurd hgb hg
    · exact ha p hp2 hpn hpk

theorem sinkChild_facts (h : IndexMinHeap) (k : Nat) (hk1 : 1 ≤ k)
    (h2k : 2 * k ≤ h.n) :
    2 ≤ sinkChild h k ∧ sinkChild h k ≤ h.n ∧ k < sinkChild h k ∧
      sinkChild h k / 2 = k := by
  unfold sinkChild
  split_ifs with hc
  · refine ⟨by omega, by omega, by omega, by omega⟩
  · refine ⟨by omega, by omega, by omega, by omega⟩

/-- The selected child is not greater than either child of `k`. -/
theorem sinkChild_sel (h : IndexMinHeap) (k : Nat) (hk1 : 1 ≤ k)
    (h2k : 2 * k ≤ h.n) :
    ∀ c, 2 ≤ c → c ≤ h.n → c / 2 = k → greaterAt h (sinkChild h k) c = false := by
  intro c hc2 hcn hck
  have hcc : c = 2 * k ∨ c = 2 * k + 1 := by omega
  by_cases hcj : c = sinkChild h k
  · rw [hcj, greaterAt]
    exact recGreaterB_irrefl _
  · unfold sinkChild at hcj ⊢
    split_ifs at hcj ⊢ with hcond
    · -- selected child is 2k+1, so c = 2k and greater(2k, 2k+1) holds
      have hc1 : c = 2 * k := by omega
      subst hc1
      rw [greaterAt] at hcond ⊢
      exact recGreaterB_asymm hcond.2
    · -- selected child is 2k
      have hc1 : c = 2 * k + 1 := by omega
      subst hc1
      rcases Decidable.em (greaterAt h (2 * k) (2 * k + 1) = true) with hx | hx
      · exact absurd ⟨by omega, hx⟩ hcond
      · cases hxx : greaterAt h (2 * k) (2 * k + 1)
        · rfl
        · exact absurd hxx hx

/-- `sink` restores the heap order, assuming it holds everywhere except
between `k` and its children, and that `k`'s children are not smaller than
`k`'s parent. -/
theorem sink_ord (h : IndexMinHeap) (k : Nat) :
    1 ≤ k → pqInj h →
    (∀ p, 2 ≤ p → p ≤ h.n → p / 2 ≠ k → greaterAt h (p / 2) p = false) →
    (∀ c, 2 ≤ c → c ≤ h.n → c / 2 = k → 2 ≤ k → greaterAt h (k / 2) c = false) →
    (∀ p, 2 ≤ p → p ≤ (sink h k).n → greaterAt (sink h k) (p / 2) p = false)
      ∧ pqInj (sink h k) ∧ (∀ i, inPQ (sink h k) i ↔ inPQ h i) := by
  induction h, k using sink.induct with
  | case1 h k h2k hg ih =>
    intro hk1 hinj ha hb
    have hkn : k ≤ h.n := by omega
    obtain ⟨hj2, hjn, hkj, hjhalf⟩ := sinkChild_facts h k hk1 h2k
    have hsel := sinkChild_sel h k hk1 h2k
    have hσk : posSwap k (sinkChild h k) k = sinkChild h k := by
      unfold posSwap
      split_ifs <;> omega
    have hσj : posSwap k (sinkChild h k) (sinkChild h k) = k := by
      unfold posSwap
      rw [if_pos rfl]
    have hσo : ∀ x, x ≠ k → x ≠ sinkChild h k → posSwap k (sinkChild h k) x = x := by
      intro x h1 h2
      unfold posSwap
      rw [if_neg h2, if_neg h1]
    have ha2 : ∀ p, 2 ≤ p → p ≤ (exchange h k (sinkChild h k)).n →
        p / 2 ≠ sinkChild h k →
        greaterAt (exchange h k (sinkChild h k)) (p / 2) p = false := by
      intro p hp2 hpn hpj
      rw [exchange_n] at hpn
      rw [exchange_greaterAt_swap]
      by_cases hpJ : p = sinkChild h k
      · rw [hpJ, hσj, hjhalf, hσk, greaterAt]
        rw [greaterAt] at hg
        exact recGreaterB_asymm hg
      · by_cases hpk : p = k
        · rw [hpk, hσk]
          have hq : posSwap k (sinkChild h k) (k / 2) = k / 2 := by
            refine hσo _ (by omega) (by omega)
          rw [hq]
          exact hb (sinkChild h k) hj2 hjn hjhalf (by omega)
        · rw [hσo p hpk hpJ]
          by_cases hpc : p / 2 = k
          · rw [hpc, hσk]
            exact hsel p hp2 hpn hpc
          · rw [hσo (p / 2) hpc hpj]
            exact ha p hp2 hpn hpc
    have hb2 : ∀ c, 2 ≤ c → c ≤ (exchange h k (sinkChild h k)).n →
        c / 2 = sinkChild h k → 2 ≤ sinkChild h k →
        greaterAt (exchange h k (sinkChild h k)) (sinkChild h k / 2) c = false := by
      intro c hc2 hcn hcj _
      rw [exchange_n] at hcn
      rw [exchange_greaterAt_swap, hjhalf, hσk]
      have hck : c ≠ k := by omega
      have hcJ : c ≠ sinkChild h k := by omega
      rw [hσo c hck hcJ]
      have hthis := ha c hc2 hcn (by omega)
      rw [hcj] at hthis
      exact hthis
    have hinj2 : pqInj (exchange h k (sinkChild h k)) :=
      exchange_inj h k (sinkChild h k) (by omega) hkn (by omega) hjn hinj
    have ihr := ih (by omega) hinj2 ha2 hb2
    rw [sink, dif_pos h2k, dif_pos hg]
    refine ⟨ihr.1, ihr.2.1, ?_⟩
    intro i
    rw [ihr.2.2 i]
    exact exchange_inPQ h k (sinkChild h k) (by omega) hkn (by omega) hjn i
  | case2 h k h2k hg =>
    intro hk1 hinj ha _
    rw [sink, dif_pos h2k, dif_neg hg]
    refine ⟨?_, hinj, fun i => Iff.rfl⟩
    intro p hp2 hpn
    by_cases hpc : p / 2 = k
    · obtain ⟨hj2, hjn, hkj, hjhalf⟩ := sinkChild_facts h k hk1 h2k
      have hsel := sinkChild_sel h k hk1 h2k p hp2 hpn hpc
      have hgf : greaterAt h k (sinkChild h k) = false := by
        cases hxx : greaterAt h k (sinkChild h k)
        · rfl
        · exact absurd hxx hg
      rw [hpc, greaterAt]
      rw [greaterAt] at hgf hsel
      exact recLeB_trans hgf hsel
    · exact ha p hp2 hpn hpc
  | case3 h k h2k =>
    intro hk1 hinj ha _
    rw [sink, dif_neg h2k]
    refine ⟨?_, hinj, fun i => Iff.rfl⟩
    intro p hp2 hpn
    have hne : p / 2 ≠ k := by omega
    exact ha p hp2 hpn hne

end HastyDB

namespace HastyDB

theorem upd_same {α : Type} (f : Nat → α) (i : Nat) (v : α) : upd f i v i = v := by
  simp [upd]

theorem upd_ne {α : Type} (f : Nat → α) (i j : Nat) (v : α) (h : j ≠ i) :
    upd f i v j = f j := by
  simp [upd, h]

/-- In a heap satisfying the order property, the root is not greater than
any live position. -/
theorem root_min (h : IndexMinHeap)
    (hord : ∀ p, 2 ≤ p → p ≤ h.n → greaterAt h (p / 2) p = false) :
    ∀ p, 1 ≤ p → p ≤ h.n → recGreaterB (recAtD h 1) (recAtD h p) = false := by
  intro p
  induction p using Nat.strong_induction_on with
  | _ p ih =>
    intro hp1 hpn
    rcases Nat.lt_or_ge p 2 with h2 | h2
    · have hp : p = 1 := by omega
      rw [hp]
      exact recGreaterB_irrefl _
    · have h1 := hord p h2 hpn
      rw [greaterAt] at h1
      have hstep := ih (p / 2) (by omega) (by omega) (by omega)
      exact recLeB_trans hstep h1

/-- Full specification of `Insert` on a well-formed heap with a free
stream index. -/
theorem heapInsert_spec (h : IndexMinHeap) (i : Nat) (x : Rec)
    (hwf : WF h) (hfree : h.items i = none) :
    WF (heapInsert h i x)
    ∧ (heapInsert h i x).items = upd h.items i (some x)
    ∧ (heapInsert h i x).n = h.n + 1
    ∧ (∀ j, inPQ (heapInsert h i x) j ↔ (j = i ∨ inPQ h j)) := by
  have hnotin : ∀ p, 1 ≤ p → p ≤ h.n → h.pq p ≠ i := by
    intro p hp1 hpn heq
    have hin : inPQ h i := ⟨p, hp1, hpn, heq⟩
    have := (hwf.mem i).mpr hin
    rw [hfree] at this
    simp at this
  set h2 : IndexMinHeap :=
    { n := h.n + 1
      pq := upd h.pq (h.n + 1) i
      qp := upd h.qp i (Int.ofNat (h.n + 1))
      items := upd h.items i (some x) } with hh2
  have hn2 : h2.n = h.n + 1 := rfl
  have hpqtop : h2.pq (h.n + 1) = i := upd_same h.pq (h.n + 1) i
  have hitems2 : ∀ j, h2.items j = upd h.items i (some x) j := fun _ => rfl
  have hpq2 : ∀ p, p ≤ h.n → h2.pq p = h.pq p := by
    intro p hpn
    exact upd_ne _ _ _ _ (by omega)
  have hrec2 : ∀ p, 1 ≤ p → p ≤ h.n → recAtD h2 p = recAtD h p := by
    intro p hp1 hpn
    rw [recAtD, recAtD, hpq2 p hpn, hitems2]
    rw [upd_ne _ _ _ _ (hnotin p hp1 hpn)]
  have hinj2 : pqInj h2 := by
    intro p q hp1 hpn hq1 hqn heq
    rw [hn2] at hpn hqn
    by_cases hp : p = h.n + 1
    · by_cases hq : q = h.n + 1
      · omega
      · rw [hp, hpqtop] at heq
        rw [hpq2 q (by omega)] at heq
        exact absurd heq.symm (hnotin q hq1 (by omega))
    · by_cases hq : q = h.n + 1
      · rw [hq, hpqtop] at heq
        rw [hpq2 p (by omega)] at heq
        exact absurd heq (hnotin p hp1 (by omega))
      · rw [hpq2 p (by omega), hpq2 q (by omega)] at heq
        exact hwf.inj p q hp1 (by omega) hq1 (by omega) heq
  have hmem2 : ∀ j, inPQ h2 j ↔ (j = i ∨ inPQ h j) := by
    intro j
    constructor
    · rintro ⟨p, hp1, hpn, hpe⟩
      rw [hn2] at hpn
      by_cases hp : p = h.n + 1
      · rw [hp, hpqtop] at hpe
        exact Or.inl hpe.symm
      · right
        rw [hpq2 p (by omega)] at hpe
        exact ⟨p, hp1, by omega, hpe⟩
    · rintro (hj | ⟨p, hp1, hpn, hpe⟩)
      · refine ⟨h.n + 1, by omega, by omega, ?_⟩
        rw [hpqtop, hj]
      · refine ⟨p, hp1, by omega, ?_⟩
        rw [hpq2 p hpn]
        exact hpe
  have ha2 : ∀ p, 2 ≤ p → p ≤ h2.n → p ≠ h.n + 1 →
      greaterAt h2 (p / 2) p = false := by
    intro p hp2 hpn hpne
    rw [hn2] at hpn
    rw [greaterAt, hrec2 p (by omega) (by omega), hrec2 (p / 2) (by omega) (by omega)]
    have hthis := hwf.ord p hp2 (by omega)
    rw [greaterAt] at hthis
    exact hthis
  have hb2 : ∀ c, 2 ≤ c → c ≤ h2.n → c / 2 = h.n + 1 → 2 ≤ h.n + 1 →
      greaterAt h2 ((h.n + 1) / 2) c = false := by
    intro c hc2 hcn hcc _
    rw [hn2] at hcn
    omega
  have hswim := swim_ord h2 (h.n + 1) (by omega) (by omega) hinj2 ha2 hb2
  have hins : heapInsert h i x = swim h2 (h.n + 1) := rfl
  rw [hins]
  refine ⟨⟨hswim.2.1, ?_, ?_⟩, ?_, ?_, ?_⟩
  · intro j
    rw [swim_items, hitems2]
    rw [hswim.2.2 j, hmem2 j]
    by_cases hji : j = i
    · rw [hji, upd_same]
      simp
    · rw [upd_ne _ _ _ _ hji]
      rw [hwf.mem j]
      simp [hji]
  · intro p hp2 hpn
    exact hswim.1 p hp2 hpn
  · rw [swim_items]
  · rw [swim_n]
  · intro j
    rw [hswim.2.2 j, hmem2 j]

end HastyDB

namespace HastyDB

/-- Full specification of `Min` on a non-empty well-formed heap: it returns
the root index and record, the record is not greater than any live record,
and the resulting heap is well-formed with that index removed. -/
theorem heapMin_spec (h : IndexMinHeap) (hwf : WF h) (hn : h.n ≠ 0) :
    ∃ rec, h.items (h.pq 1) = some rec
      ∧ (heapMin h).1 = Int.ofNat (h.pq 1)
      ∧ (heapMin h).2.1 = some rec
      ∧ WF (heapMin h).2.2
      ∧ (heapMin h).2.2.items = upd h.items (h.pq 1) none
      ∧ (heapMin h).2.2.n = h.n - 1
      ∧ (∀ i, inPQ (heapMin h).2.2 i ↔ (inPQ h i ∧ i ≠ h.pq 1))
      ∧ (∀ j r2, h.items j = some r2 → recGreaterB rec r2 = false) := by
  have hn1 : 1 ≤ h.n := by omega
  have hsome : (h.items (h.pq 1)).isSome :=
    (hwf.mem (h.pq 1)).mpr ⟨1, by omega, by omega, rfl⟩
  obtain ⟨rec, hrec⟩ := Option.isSome_iff_exists.mp hsome
  set h2 : IndexMinHeap := { exchange h 1 h.n with n := (exchange h 1 h.n).n - 1 }
    with hh2
  have h2n : h2.n = h.n - 1 := rfl
  have h2items : h2.items = h.items := rfl
  have h2pq : ∀ q, h2.pq q = h.pq (posSwap 1 h.n q) := fun q =>
    exchange_pq_swap h 1 h.n q
  have hσid : ∀ q, q ≠ 1 → q ≠ h.n → posSwap 1 h.n q = q := by
    intro q h1 h2
    unfold posSwap
    rw [if_neg h2, if_neg h1]
  have hσ1 : posSwap 1 h.n 1 = h.n := by
    unfold posSwap
    by_cases he : (1 : Nat) = h.n
    · rw [if_pos he, he]
    · rw [if_neg he, if_pos rfl]
  have hinj2 : pqInj h2 := by
    intro p q hp1 hpn hq1 hqn heq
    rw [h2n] at hpn hqn
    have hx := exchange_inj h 1 h.n (by omega) hn1 hn1 (by omega) hwf.inj
    exact hx p q hp1 (by rw [exchange_n]; omega) hq1 (by rw [exchange_n]; omega) heq
  have hmemc : ∀ j, inPQ h2 j ↔ (inPQ h j ∧ j ≠ h.pq 1) := by
    intro j
    constructor
    · rintro ⟨p, hp1, hpn, hpe⟩
      rw [h2n] at hpn
      rw [h2pq] at hpe
      by_cases hp : p = 1
      · rw [hp, hσ1] at hpe
        have hn2 : 2 ≤ h.n := by omega
        refine ⟨⟨h.n, by omega, by omega, hpe⟩, ?_⟩
        intro hje
        rw [hje] at hpe
        have := hwf.inj h.n 1 (by omega) (by omega) (by omega) (by omega) hpe
        omega
      · rw [hσid p hp (by omega)] at hpe
        refine ⟨⟨p, hp1, by omega, hpe⟩, ?_⟩
        intro hje
        rw [hje] at hpe
        have := hwf.inj p 1 hp1 (by omega) (by omega) (by omega) hpe
        omega
    · rintro ⟨⟨p, hp1, hpn, hpe⟩, hne⟩
      have hp1' : p ≠ 1 := by
        intro he
        rw [he] at hpe
        exact hne hpe.symm
      by_cases hpn' : p = h.n
      · refine ⟨1, by omega, by rw [h2n]; omega, ?_⟩
        rw [h2pq, hσ1, ← hpn']
        exact hpe
      · refine ⟨p, hp1, by rw [h2n]; omega, ?_⟩
        rw [h2pq, hσid p hp1' hpn']
        exact hpe
  have hrec2 : ∀ q, 1 ≤ q → q ≤ h.n - 1 → q ≠ 1 → recAtD h2 q = recAtD h q := by
    intro q hq1 hqn hq
    rw [recAtD, recAtD, h2items, h2pq, hσid q hq (by omega)]
  have ha2 : ∀ p, 2 ≤ p → p ≤ h2.n → p / 2 ≠ 1 →
      greaterAt h2 (p / 2) p = false := by
    intro p hp2 hpn hph
    rw [h2n] at hpn
    rw [greaterAt, hrec2 p (by omega) (by omega) (by omega),
      hrec2 (p / 2) (by omega) (by omega) hph]
    have hthis := hwf.ord p hp2 (by omega)
    rw [greaterAt] at hthis
    exact hthis
  have hb2 : ∀ c, 2 ≤ c → c ≤ h2.n → c / 2 = 1 → 2 ≤ 1 →
      greaterAt h2 (1 / 2) c = false := by
    intro c _ _ _ hcon
    omega
  have hsink := sink_ord h2 1 (by omega) hinj2 ha2 hb2
  have h3n : (sink h2 1).n = h.n - 1 := by rw [sink_n, h2n]
  have h3items : (sink h2 1).items = h.items := by rw [sink_items, h2items]
  have hnotroot : ∀ q, 1 ≤ q → q ≤ h.n - 1 → (sink h2 1).pq q ≠ h.pq 1 := by
    intro q hq1 hqn heq
    have hin : inPQ (sink h2 1) ((sink h2 1).pq q) :=
      ⟨q, hq1, by rw [h3n]; omega, rfl⟩
    rw [hsink.2.2] at hin
    rw [hmemc] at hin
    exact hin.2 heq
  have hfst : (heapMin h).1 = Int.ofNat (h.pq 1) := by
    rw [heapMin, if_neg hn]
  have hsnd : (heapMin h).2.1 = some rec := by
    rw [heapMin, if_neg hn]
    exact hrec
  have hthd : (heapMin h).2.2 =
      { sink h2 1 with items := upd (sink h2 1).items (h.pq 1) none
                       qp := upd (sink h2 1).qp (h.pq 1) (-1) } := by
    rw [heapMin, if_neg hn]
  have h4pq : (heapMin h).2.2.pq = (sink h2 1).pq := by rw [hthd]
  have h4n : (heapMin h).2.2.n = h.n - 1 := by rw [hthd]; exact h3n
  have h4items : (heapMin h).2.2.items = upd h.items (h.pq 1) none := by
    rw [hthd]
    show upd (sink h2 1).items (h.pq 1) none = _
    rw [h3items]
  have h4inPQ : ∀ i, inPQ (heapMin h).2.2 i ↔ (inPQ h i ∧ i ≠ h.pq 1) := by
    intro i
    rw [← hmemc, ← hsink.2.2]
    constructor
    · rintro ⟨p, hp1, hpn, hpe⟩
      rw [h4n] at hpn
      rw [h4pq] at hpe
      exact ⟨p, hp1, by rw [h3n]; omega, hpe⟩
    · rintro ⟨p, hp1, hpn, hpe⟩
      rw [h3n] at hpn
      exact ⟨p, hp1, by rw [h4n]; omega, by rw [h4pq]; exact hpe⟩
  refine ⟨rec, hrec, hfst, hsnd, ⟨?_, ?_, ?_⟩, h4items, h4n, h4inPQ, ?_⟩
  · intro p q hp1 hpn hq1 hqn heq
    rw [h4n] at hpn hqn
    rw [h4pq] at heq
    exact hsink.2.1 p q hp1 (by rw [h3n]; omega) hq1 (by rw [h3n]; omega) heq
  · intro i
    rw [h4items, h4inPQ]
    by_cases hi : i = h.pq 1
    · rw [hi, upd_same]
      simp
    · rw [upd_ne _ _ _ _ hi, hwf.mem i]
      simp [hi]
  · intro p hp2 hpn
    rw [h4n] at hpn
    have hg := hsink.1 p hp2 (by rw [h3n]; omega)
    rw [greaterAt] at hg ⊢
    have hv : ∀ q, 1 ≤ q → q ≤ h.n - 1 →
        recAtD (heapMin h).2.2 q = recAtD (sink h2 1) q := by
      intro q hq1 hqn
      rw [recAtD, recAtD, h4pq, h4items, h3items]
      rw [upd_ne _ _ _ _ (hnotroot q hq1 hqn)]
    rw [hv p (by omega) (by omega), hv (p / 2) (by omega) (by omega)]
    exact hg
  · intro j r2 hj
    have hjin : inPQ h j := (hwf.mem j).mp (by rw [hj]; rfl)
    obtain ⟨p, hp1, hpn, hpe⟩ := hjin
    have hmin := root_min h hwf.ord p hp1 hpn
    have e1 : recAtD h 1 = rec := by rw [recAtD, hrec]; rfl
    have e2 : recAtD h p = r2 := by rw [recAtD, hpe, hj]; rfl
    rw [e1, e2] at hmin
    exact hmin

end HastyDB

namespace HastyDB

/-! ## The merge-loop simulation -/

/-- Tagging a record with its stream index, as the merge code does on every
insertion (`rec.order = i`). -/
def tag (i : Nat) (r : Rec) : Rec := { r with order := i }

/-- A record still pending: held in the heap for its stream, or still
unread in a stream (where it will be tagged on insertion). -/
def PendIn (h : IndexMinHeap) (ss : List (List Rec)) (r : Rec) : Prop :=
  (∃ i, h.items i = some r) ∨
  (∃ i x, i < ss.length ∧ x ∈ ss.getD i [] ∧ r = tag i x)

/-- Strictly ascending keys along a list of records. -/
def KeysAsc (s : List Rec) : Prop :=
  List.Chain' (fun a b => keyLtB a.key b.key = true) s

/-- Strictly ascending records (`b` greater than `a`) along a list. -/
def RecsAsc (l : List Rec) : Prop :=
  List.Chain' (fun a b => recGreaterB b a = true) l

instance : IsTrans Rec (fun a b => keyLtB a.key b.key = true) :=
  ⟨fun _ _ _ h1 h2 => keyLtB_trans h1 h2⟩

instance : IsTrans Rec (fun a b => recGreaterB b a = true) :=
  ⟨fun _ _ _ h1 h2 => recGreaterB_trans h2 h1⟩

theorem KeysAsc_pairwise {s : List Rec} (h : KeysAsc s) :
    List.Pairwise (fun a b => keyLtB a.key b.key = true) s :=
  List.chain'_iff_pairwise.mp h

theorem RecsAsc_pairwise {l : List Rec} (h : RecsAsc l) :
    List.Pairwise (fun a b => recGreaterB b a = true) l :=
  List.chain'_iff_pairwise.mp h

/-- The merge-loop invariant tying the heap and remaining streams to the
strictly sorted list `rest` of records still to be popped. -/
structure MInv (h : IndexMinHeap) (ss : List (List Rec)) (rest : List Rec) :
    Prop where
  wf : WF h
  bound : ∀ i, ss.length ≤ i → h.items i = none
  tagged : ∀ i r, h.items i = some r → r.order = i
  exhaust : ∀ i, i < ss.length → h.items i = none → ss.getD i [] = []
  headlt : ∀ i r, h.items i = some r → ∀ x ∈ ss.getD i [], keyLtB r.key x.key = true
  schain : ∀ i, KeysAsc (ss.getD i [])
  sorted : RecsAsc rest
  mem : ∀ r, r ∈ rest ↔ PendIn h ss r

/-- The pure residue of the merge loop over the list of future pops,
mirroring the loop body of `mergeStreams` record by record. -/
def emitRest (prev : Option Rec) (out : List Rec) : List Rec → Option (List Rec)
  | [] =>
    match prev with
    | none => none
    | some p => some (out ++ [p])
  | rec :: rest =>
    let prev1 := prev.getD rec
    let st := if prev1.key ≠ rec.key then (out ++ [prev1], rec) else (out, prev1)
    emitRest (some { st.2 with value := rec.value }) st.1 rest

theorem getD_set_self (l : List (List Rec)) (i : Nat) (x : List Rec)
    (hi : i < l.length) : (l.set i x).getD i [] = x := by
  rw [List.getD_eq_getElem?_getD, List.getElem?_set_self hi]
  rfl

theorem getD_set_ne (l : List (List Rec)) (i j : Nat) (x : List Rec)
    (hij : j ≠ i) : (l.set i x).getD j [] = l.getD j [] := by
  rw [List.getD_eq_getElem?_getD, List.getElem?_set_ne (fun he => hij he.symm),
    ← List.getD_eq_getElem?_getD]

theorem getD_nonempty_lt (l : List (List Rec)) (i : Nat)
    (hne : l.getD i [] ≠ []) : i < l.length := by
  by_contra hge
  rw [List.getD_eq_getElem?_getD] at hne
  rw [List.getElem?_eq_none (by omega)] at hne
  exact hne rfl

/-- In a strictly sorted list, any element of the tail differs from the
head. -/
theorem RecsAsc.ne_head {r0 r : Rec} {rest : List Rec}
    (h : RecsAsc (r0 :: rest)) (hr : r ∈ rest) : r ≠ r0 := by
  have hp := RecsAsc_pairwise h
  rw [List.pairwise_cons] at hp
  have := hp.1 r hr
  intro he
  rw [he] at this
  rw [recGreaterB_irrefl] at this
  simp at this

end HastyDB

namespace HastyDB

/-- Popping the minimum (stream exhausted, no refill) preserves the
invariant with the head of `rest` consumed. -/
theorem MInv_pop_noRefill (h h4 : IndexMinHeap) (ss : List (List Rec))
    (i0 : Nat) (rec : Rec) (rest' : List Rec)
    (hm : MInv h ss (rec :: rest'))
    (hi0 : h.items i0 = some rec)
    (hwf4 : WF h4)
    (hit4 : h4.items = upd h.items i0 none)
    (hempty : ss.getD i0 [] = []) :
    MInv h4 ss rest' := by
  have hreco : rec.order = i0 := hm.tagged i0 rec hi0
  have hit4' : ∀ j, h4.items j = if j = i0 then none else h.items j := by
    intro j
    rw [hit4, upd]
  refine ⟨hwf4, ?_, ?_, ?_, ?_, hm.schain, hm.sorted.tail, ?_⟩
  · intro i hi
    rw [hit4' i]
    split
    · rfl
    · exact hm.bound i hi
  · intro i r hr
    rw [hit4' i] at hr
    split at hr
    · exact absurd hr (by simp)
    · exact hm.tagged i r hr
  · intro i hi hnone
    rw [hit4' i] at hnone
    by_cases hii : i = i0
    · rw [hii]
      exact hempty
    · rw [if_neg hii] at hnone
      exact hm.exhaust i hi hnone
  · intro i r hr x hx
    rw [hit4' i] at hr
    split at hr
    · exact absurd hr (by simp)
    · exact hm.headlt i r hr x hx
  · intro r
    constructor
    · intro hr
      have hne : r ≠ rec := hm.sorted.ne_head hr
      have hpend := (hm.mem r).mp (List.mem_cons_of_mem rec hr)
      rcases hpend with ⟨i, hi⟩ | hstream
      · by_cases hii : i = i0
        · rw [hii, hi0] at hi
          injection hi with hi
          exact absurd hi.symm hne
        · exact Or.inl ⟨i, by rw [hit4' i, if_neg hii]; exact hi⟩
      · exact Or.inr hstream
    · intro hpend
      have hpendh : PendIn h ss r := by
        rcases hpend with ⟨i, hi⟩ | hstream
        · rw [hit4' i] at hi
          split at hi
          · exact absurd hi (by simp)
          · exact Or.inl ⟨i, hi⟩
        · exact Or.inr hstream
      have hrr := (hm.mem r).mpr hpendh
      rcases List.mem_cons.mp hrr with he | he
      · exfalso
        subst he
        rcases hpend with ⟨i, hi⟩ | ⟨i, x, hilen, hx, htag⟩
        · rw [hit4' i] at hi
          by_cases hii : i = i0
          · rw [if_pos hii] at hi
            exact absurd hi (by simp)
          · rw [if_neg hii] at hi
            have hord := hm.tagged i r hi
            rw [hreco] at hord
            exact hii hord.symm
        · have hord : r.order = i := by rw [htag]; rfl
          rw [hreco] at hord
          rw [← hord] at hx
          rw [hempty] at hx
          exact absurd hx (List.not_mem_nil x)
      · exact he

/-- Popping the minimum and refilling from its stream preserves the
invariant with the head of `rest` consumed. -/
theorem MInv_pop_refill (h h4 : IndexMinHeap) (ss : List (List Rec))
    (i0 : Nat) (rec : Rec) (rest' : List Rec) (r : Rec) (rs : List Rec)
    (hm : MInv h ss (rec :: rest'))
    (hi0 : h.items i0 = some rec)
    (hwf4 : WF h4)
    (hit4 : h4.items = upd h.items i0 none)
    (hr : ss.getD i0 [] = r :: rs) :
    MInv (heapInsert h4 i0 (tag i0 r)) (ss.set i0 rs) rest' := by
  have hilen : i0 < ss.length := getD_nonempty_lt ss i0 (by rw [hr]; simp)
  have hreco : rec.order = i0 := hm.tagged i0 rec hi0
  have hfree : h4.items i0 = none := by rw [hit4]; exact upd_same _ _ _
  obtain ⟨hwf2, hit2a, hn2, hinpq2⟩ := heapInsert_spec h4 i0 (tag i0 r) hwf4 hfree
  have hit2 : ∀ j, (heapInsert h4 i0 (tag i0 r)).items j
      = if j = i0 then some (tag i0 r) else h.items j := by
    intro j
    rw [hit2a, hit4]
    by_cases hj : j = i0
    · rw [hj, upd_same, if_pos rfl]
    · rw [upd_ne _ _ _ _ hj, upd_ne _ _ _ _ hj, if_neg hj]
  have hlen2 : (ss.set i0 rs).length = ss.length := List.length_set ss i0 rs
  have hrmem : r ∈ ss.getD i0 [] := by
    rw [hr]
    exact List.mem_cons_self r rs
  have hkeyrec : ∀ x ∈ ss.getD i0 [], keyLtB rec.key x.key = true :=
    hm.headlt i0 rec hi0
  refine ⟨hwf2, ?_, ?_, ?_, ?_, ?_, hm.sorted.tail, ?_⟩
  · intro i hi
    rw [hlen2] at hi
    rw [hit2 i, if_neg (by omega)]
    exact hm.bound i hi
  · intro i r2 hr2
    rw [hit2 i] at hr2
    split at hr2
    · rename_i hii
      injection hr2 with hr2
      rw [← hr2, hii]
      rfl
    · exact hm.tagged i r2 hr2
  · intro i hi hnone
    rw [hlen2] at hi
    rw [hit2 i] at hnone
    by_cases hii : i = i0
    · rw [if_pos hii] at hnone
      exact absurd hnone (by simp)
    · rw [if_neg hii] at hnone
      rw [getD_set_ne ss i0 i rs hii]
      exact hm.exhaust i hi hnone
  · intro i r2 hr2 x hx
    rw [hit2 i] at hr2
    by_cases hii : i = i0
    · rw [if_pos hii] at hr2
      injection hr2 with hr2
      rw [hii] at hx
      rw [getD_set_self ss i0 rs hilen] at hx
      have hchain := hm.schain i0
      rw [hr] at hchain
      have hp := (List.chain'_iff_pairwise.mp hchain)
      rw [List.pairwise_cons] at hp
      have hlt := hp.1 x hx
      rw [← hr2]
      exact hlt
    · rw [if_neg hii] at hr2
      rw [getD_set_ne ss i0 i rs hii] at hx
      exact hm.headlt i r2 hr2 x hx
  · intro i
    by_cases hii : i = i0
    · rw [hii, getD_set_self ss i0 rs hilen]
      have hchain := hm.schain i0
      rw [hr] at hchain
      exact hchain.tail
    · rw [getD_set_ne ss i0 i rs hii]
      exact hm.schain i
  · intro r2
    constructor
    · intro hr2
      have hne : r2 ≠ rec := hm.sorted.ne_head hr2
      have hpend := (hm.mem r2).mp (List.mem_cons_of_mem rec hr2)
      rcases hpend with ⟨i, hi⟩ | ⟨i, x, hilen2, hx, htag⟩
      · by_cases hii : i = i0
        · rw [hii, hi0] at hi
          injection hi with hi
          exact absurd hi.symm hne
        · exact Or.inl ⟨i, by rw [hit2 i, if_neg hii]; exact hi⟩
      · by_cases hii : i = i0
        · rw [hii] at hx htag
          rw [hr] at hx
          rcases List.mem_cons.mp hx with hxr | hxr
          · rw [hxr] at htag
            exact Or.inl ⟨i0, by rw [hit2 i0, if_pos rfl, htag]⟩
          · exact Or.inr ⟨i0, x, by rw [hlen2]; exact hilen,
              by rw [getD_set_self ss i0 rs hilen]; exact hxr, htag⟩
        · exact Or.inr ⟨i, x, by rw [hlen2]; exact hilen2,
            by rw [getD_set_ne ss i0 i rs hii]; exact hx, htag⟩
    · intro hpend
      rcases hpend with ⟨i, hi⟩ | ⟨i, x, hilen2, hx, htag⟩
      · rw [hit2 i] at hi
        by_cases hii : i = i0
        · rw [if_pos hii] at hi
          injection hi with hi
          have hinrest : r2 ∈ rec :: rest' :=
            (hm.mem r2).mpr (Or.inr ⟨i0, r, hilen, hrmem, hi.symm⟩)
          have hner : r2 ≠ rec := by
            intro he
            have hkey := hkeyrec r hrmem
            have hke : rec.key = r.key := by rw [← he, ← hi]; rfl
            rw [hke, keyLtB_irrefl] at hkey
            simp at hkey
          rcases List.mem_cons.mp hinrest with he | he
          · exact absurd he hner
          · exact he
        · rw [if_neg hii] at hi
          have hinrest := (hm.mem r2).mpr (Or.inl ⟨i, hi⟩)
          have hner : r2 ≠ rec := by
            intro he
            have h1 := hm.tagged i r2 hi
            rw [he, hreco] at h1
            exact hii h1.symm
          rcases List.mem_cons.mp hinrest with he | he
          · exact absurd he hner
          · exact he
      · rw [hlen2] at hilen2
        by_cases hii : i = i0
        · rw [hii] at hx htag
          rw [getD_set_self ss i0 rs hilen] at hx
          have hxmem : x ∈ ss.getD i0 [] := by
            rw [hr]
            exact List.mem_cons_of_mem r hx
          have hinrest := (hm.mem r2).mpr (Or.inr ⟨i0, x, hilen, hxmem, htag⟩)
          have hner : r2 ≠ rec := by
            intro he
            have hkey := hkeyrec x hxmem
            have hke : rec.key = x.key := by rw [← he, htag]; rfl
            rw [hke, keyLtB_irrefl] at hkey
            simp at hkey
          rcases List.mem_cons.mp hinrest with he | he
          · exact absurd he hner
          · exact he
        · rw [getD_set_ne ss i0 i rs hii] at hx
          have hinrest := (hm.mem r2).mpr (Or.inr ⟨i, x, hilen2, hx, htag⟩)
          have hner : r2 ≠ rec := by
            intro he
            have hord : r2.order = i := by rw [htag]; rfl
            rw [he, hreco] at hord
            exact hii hord.symm
          rcases List.mem_cons.mp hinrest with he | he
          · exact absurd he hner
          · exact he

end HastyDB

namespace HastyDB

theorem MInv_rest_nil (h : IndexMinHeap) (ss : List (List Rec))
    (rest : List Rec) (hm : MInv h ss rest) (hn : h.n = 0) : rest = [] := by
  have hnone : ∀ i, h.items i = none := by
    intro i
    cases hit : h.items i with
    | none => rfl
    | some r =>
      have hin := (hm.wf.mem i).mp (by rw [hit]; rfl)
      obtain ⟨p, hp1, hpn, _⟩ := hin
      omega
  rw [List.eq_nil_iff_forall_not_mem]
  intro r hr
  rcases (hm.mem r).mp hr with ⟨i, hi⟩ | ⟨i, x, hilen, hx, _⟩
  · rw [hnone i] at hi
    exact absurd hi (by simp)
  · rw [hm.exhaust i hilen (hnone i)] at hx
    exact absurd hx (List.not_mem_nil x)

theorem mergeLoop_base (h : IndexMinHeap) (ss : List (List Rec))
    (rest : List Rec) (prev : Option Rec) (out : List Rec)
    (hm : MInv h ss rest) (hn : h.n = 0) :
    mergeLoop h ss prev out = emitRest prev out rest := by
  have hrest := MInv_rest_nil h ss rest hm hn
  subst hrest
  rw [mergeLoop.eq_def, dif_pos hn]
  cases prev <;> rfl

theorem emitRest_cons (prev : Option Rec) (out : List Rec) (rec : Rec)
    (rest : List Rec) :
    emitRest prev out (rec :: rest)
      = emitRest
          (some { (if (prev.getD rec).key ≠ rec.key
              then (out ++ [prev.getD rec], rec) else (out, prev.getD rec)).2
            with value := rec.value })
          (if (prev.getD rec).key ≠ rec.key
              then (out ++ [prev.getD rec], rec) else (out, prev.getD rec)).1
          rest := rfl

theorem mergeLoop_eq_emitRest (fuel : Nat) :
    ∀ (h : IndexMinHeap) (ss : List (List Rec)) (rest : List Rec)
      (prev : Option Rec) (out : List Rec),
      h.n + sumLens ss ≤ fuel → MInv h ss rest →
      mergeLoop h ss prev out = emitRest prev out rest := by
  induction fuel with
  | zero =>
    intro h ss rest prev out hle hm
    exact mergeLoop_base h ss rest prev out hm (by omega)
  | succ m ih =>
    intro h ss rest prev out hle hm
    by_cases hn : h.n = 0
    · exact mergeLoop_base h ss rest prev out hm hn
    · obtain ⟨rec, hrec, hfst, hsnd, hwf4, hit4, hn4, hinpq4, hminit⟩ :=
        heapMin_spec h hm.wf hn
      have hminPend : ∀ r2, PendIn h ss r2 → recGreaterB rec r2 = false := by
        intro r2 hp
        rcases hp with ⟨i, hi⟩ | ⟨i, x, hilen, hx, htag⟩
        · exact hminit i r2 hi
        · cases hitems : h.items i with
          | none =>
            rw [hm.exhaust i hilen hitems] at hx
            exact absurd hx (List.not_mem_nil x)
          | some ri =>
            have h1 := hminit i ri hitems
            have h2 : keyLtB ri.key x.key = true := hm.headlt i ri hitems x hx
            have h3 : recGreaterB (tag i x) ri = true :=
              (recGreaterB_eq_true_iff _ _).mpr (Or.inl h2)
            rw [htag]
            exact recLe_of_le_of_gt h1 h3
      have hrecmem : rec ∈ rest := (hm.mem rec).mpr (Or.inl ⟨h.pq 1, hrec⟩)
      obtain ⟨r0, rest', hrr⟩ : ∃ r0 rest', rest = r0 :: rest' := by
        cases rest with
        | nil => cases hrecmem
        | cons a b => exact ⟨a, b, rfl⟩
      subst hrr
      have hr0 : r0 = rec := by
        by_contra hne
        have hrecin' : rec ∈ rest' := by
          rcases List.mem_cons.mp hrecmem with he | he
          · exact absurd he.symm hne
          · exact he
        have hp := RecsAsc_pairwise hm.sorted
        rw [List.pairwise_cons] at hp
        have hgt := hp.1 rec hrecin'
        have hle2 := hminPend r0 ((hm.mem r0).mp (List.mem_cons_self r0 rest'))
        rw [hle2] at hgt
        simp at hgt
      subst hr0
      have htup : heapMin h = (Int.ofNat (h.pq 1), some r0, (heapMin h).2.2) := by
        rw [← hfst, ← hsnd]
      rw [mergeLoop.eq_def, dif_neg hn]
      rw [htup, emitRest_cons]
      split
      · rename_i fstM sndM heqM
        rw [Prod.mk.injEq, Prod.mk.injEq] at heqM
        exact absurd heqM.2.1 (by simp)
      rename_i iIntM rM h4M heqM
      rw [Prod.mk.injEq, Prod.mk.injEq] at heqM
      obtain ⟨he1, he2, he3⟩ := heqM
      injection he2 with he2
      subst he1
      subst he3
      rw [← he2]
      split
      · rename_i heq
        have heq2 : ss.getD (h.pq 1) [] = [] := heq
        have hm4 := MInv_pop_noRefill h (heapMin h).2.2 ss (h.pq 1) r0 rest'
          hm hrec hwf4 hit4 heq2
        have hmeas : (heapMin h).2.2.n + sumLens ss ≤ m := by
          rw [hn4]
          omega
        exact ih (heapMin h).2.2 ss rest' _ _ hmeas hm4
      · rename_i r rs heq
        have heq2 : ss.getD (h.pq 1) [] = r :: rs := heq
        have hm4 := MInv_pop_refill h (heapMin h).2.2 ss (h.pq 1) r0 rest' r rs
          hm hrec hwf4 hit4 heq2
        have hilen : h.pq 1 < ss.length :=
          getD_nonempty_lt ss (h.pq 1) (by rw [heq2]; simp)
        have hset := sumLens_set ss (h.pq 1) rs hilen
        rw [heq2] at hset
        have hmeas : (heapInsert (heapMin h).2.2 (h.pq 1) (tag (h.pq 1) r)).n
            + sumLens (ss.set (h.pq 1) rs) ≤ m := by
          rw [heapInsert_n, hn4]
          simp only [List.length_cons] at hset
          omega
        exact ih _ _ rest' _ _ hmeas hm4

end HastyDB

namespace HastyDB

theorem WF_new : WF newIndexMinHeap := by
  refine ⟨?_, ?_, ?_⟩
  · intro p q hp1 hpn
    have : newIndexMinHeap.n = 0 := rfl
    omega
  · intro i
    constructor
    · intro hs
      exact absurd hs (by simp [newIndexMinHeap])
    · rintro ⟨p, hp1, hpn, _⟩
      have : newIndexMinHeap.n = 0 := rfl
      omega
  · intro p hp2 hpn
    have : newIndexMinHeap.n = 0 := rfl
    omega

/-- Characterization of the partial initial fill after processing stream
indices `0..m-1`. -/
theorem initFill_partial (streams : List (List Rec)) (m : Nat)
    (hm : m ≤ streams.length) :
    ((List.range m).foldl initStep (newIndexMinHeap, streams)).2.length
        = streams.length
    ∧ (∀ i, m ≤ i →
        ((List.range m).foldl initStep (newIndexMinHeap, streams)).2.getD i []
          = streams.getD i [])
    ∧ (∀ i, i < m →
        (streams.getD i [] = []
          ∧ ((List.range m).foldl initStep (newIndexMinHeap, streams)).1.items i
              = none
          ∧ ((List.range m).foldl initStep (newIndexMinHeap, streams)).2.getD i []
              = []) ∨
        (∃ r rs, streams.getD i [] = r :: rs
          ∧ ((List.range m).foldl initStep (newIndexMinHeap, streams)).1.items i
              = some (tag i r)
          ∧ ((List.range m).foldl initStep (newIndexMinHeap, streams)).2.getD i []
              = rs))
    ∧ (∀ i, m ≤ i →
        ((List.range m).foldl initStep (newIndexMinHeap, streams)).1.items i
          = none)
    ∧ WF ((List.range m).foldl initStep (newIndexMinHeap, streams)).1 := by
  induction m with
  | zero =>
    refine ⟨rfl, fun i _ => rfl, fun i hi => by omega, fun i _ => rfl, WF_new⟩
  | succ m ih =>
    obtain ⟨ha, hb, hc, hd, he⟩ := ih (by omega)
    have hstep : (List.range (m + 1)).foldl initStep (newIndexMinHeap, streams)
        = initStep ((List.range m).foldl initStep (newIndexMinHeap, streams)) m := by
      rw [List.range_succ, List.foldl_append, List.foldl_cons, List.foldl_nil]
    set acc := (List.range m).foldl initStep (newIndexMinHeap, streams) with hacc
    have hgd : acc.2.getD m [] = streams.getD m [] := hb m (by omega)
    cases hsm : streams.getD m [] with
    | nil =>
      have hid : initStep acc m = acc := by
        rw [initStep]
        rw [hgd, hsm]
      rw [hstep, hid]
      refine ⟨ha, ?_, ?_, ?_, he⟩
      · intro i hi
        exact hb i (by omega)
      · intro i hi
        by_cases him : i = m
        · subst him
          exact Or.inl ⟨hsm, hd i (by omega), hgd.trans hsm⟩
        · exact hc i (by omega)
      · intro i hi
        exact hd i (by omega)
    | cons r rs =>
      have hmlen : m < streams.length := by omega
      have hmlen2 : m < acc.2.length := by rw [ha]; exact hmlen
      have hid : initStep acc m
          = (heapInsert acc.1 m { r with order := m }, acc.2.set m rs) := by
        rw [initStep]
        rw [hgd, hsm]
      obtain ⟨hwf2, hit2, hn2, hinpq2⟩ :=
        heapInsert_spec acc.1 m { r with order := m } he (hd m (by omega))
      rw [hstep, hid]
      refine ⟨?_, ?_, ?_, ?_, hwf2⟩
      · show (acc.2.set m rs).length = streams.length
        rw [List.length_set]
        exact ha
      · intro i hi
        show (acc.2.set m rs).getD i [] = streams.getD i []
        rw [getD_set_ne acc.2 m i rs (by omega)]
        exact hb i (by omega)
      · intro i hi
        by_cases him : i = m
        · subst him
          refine Or.inr ⟨r, rs, hsm, ?_, ?_⟩
          · show (heapInsert acc.1 i { r with order := i }).items i = some (tag i r)
            rw [hit2, upd_same]
            rfl
          · show (acc.2.set i rs).getD i [] = rs
            exact getD_set_self acc.2 i rs hmlen2
        · have hci := hc i (by omega)
          rcases hci with ⟨h1, h2, h3⟩ | ⟨r2, rs2, h1, h2, h3⟩
          · refine Or.inl ⟨h1, ?_, ?_⟩
            · show (heapInsert acc.1 m { r with order := m }).items i = none
              rw [hit2, upd_ne _ _ _ _ him]
              exact h2
            · show (acc.2.set m rs).getD i [] = []
              rw [getD_set_ne acc.2 m i rs him]
              exact h3
          · refine Or.inr ⟨r2, rs2, h1, ?_, ?_⟩
            · show (heapInsert acc.1 m { r with order := m }).items i
                = some (tag i r2)
              rw [hit2, upd_ne _ _ _ _ him]
              exact h2
            · show (acc.2.set m rs).getD i [] = rs2
              rw [getD_set_ne acc.2 m i rs him]
              exact h3
      · intro i hi
        show (heapInsert acc.1 m { r with order := m }).items i = none
        rw [hit2, upd_ne _ _ _ _ (by omega)]
        exact hd i (by omega)

end HastyDB

namespace HastyDB

/-- All input records, tagged with their stream index as the merge loop
would tag them. -/
def allTagged (streams : List (List Rec)) : List Rec :=
  (List.range streams.length).flatMap (fun i => (streams.getD i []).map (tag i))

theorem mem_allTagged (streams : List (List Rec)) (r : Rec) :
    r ∈ allTagged streams ↔
      ∃ i x, i < streams.length ∧ x ∈ streams.getD i [] ∧ r = tag i x := by
  rw [allTagged, List.mem_bind]
  constructor
  · rintro ⟨i, hi, hr⟩
    rw [List.mem_range] at hi
    rw [List.mem_map] at hr
    obtain ⟨x, hx, he⟩ := hr
    exact ⟨i, x, hi, hx, he.symm⟩
  · rintro ⟨i, x, hi, hx, he⟩
    exact ⟨i, List.mem_range.mpr hi, List.mem_map.mpr ⟨x, hx, he.symm⟩⟩

theorem pairwise_key_inj {s : List Rec}
    (hp : List.Pairwise (fun a b => keyLtB a.key b.key = true) s) :
    ∀ x ∈ s, ∀ y ∈ s, x.key = y.key → x = y := by
  induction hp with
  | nil =>
    intro x hx
    cases hx
  | cons hrel hpt ih =>
    intro x hx y hy hkey
    rcases List.mem_cons.mp hx with hx1 | hx2 <;>
      rcases List.mem_cons.mp hy with hy1 | hy2
    · rw [hx1, hy1]
    · subst hx1
      have hh := hrel y hy2
      rw [← hkey] at hh
      rw [keyLtB_irrefl] at hh
      simp at hh
    · subst hy1
      have hh := hrel x hx2
      rw [hkey] at hh
      rw [keyLtB_irrefl] at hh
      simp at hh
    · exact ih x hx2 y hy2 hkey

theorem allTagged_nodup (streams : List (List Rec))
    (hsort : ∀ i, KeysAsc (streams.getD i [])) :
    (allTagged streams).Nodup := by
  rw [allTagged, List.nodup_bind]
  constructor
  · intro i _
    refine List.Pairwise.map (tag i) (fun a b hab => ?_) (KeysAsc_pairwise (hsort i))
    intro he
    have hk := congrArg Rec.key he
    exact keyLtB_ne hab hk
  · refine List.Pairwise.imp ?_ (List.pairwise_lt_range _)
    intro i j hij
    intro r hri hrj
    rw [List.mem_map] at hri hrj
    obtain ⟨x, _, hx⟩ := hri
    obtain ⟨y, _, hy⟩ := hrj
    have h1 : r.order = i := by rw [← hx]; rfl
    have h2 : r.order = j := by rw [← hy]; rfl
    omega

theorem allTagged_keyorder_inj (streams : List (List Rec))
    (hsort : ∀ i, KeysAsc (streams.getD i [])) :
    ∀ a ∈ allTagged streams, ∀ b ∈ allTagged streams,
      a.key = b.key → a.order = b.order → a = b := by
  intro a ha b hb hk ho
  rw [mem_allTagged] at ha hb
  obtain ⟨i, x, hi, hx, hax⟩ := ha
  obtain ⟨j, y, hj, hy, hby⟩ := hb
  have hio : a.order = i := by rw [hax]; rfl
  have hjo : b.order = j := by rw [hby]; rfl
  have hij : i = j := by omega
  subst hij
  have hxy : x.key = y.key := by
    have hh := hk
    rw [hax, hby] at hh
    exact hh
  have hxyeq := pairwise_key_inj (KeysAsc_pairwise (hsort i)) x hx y hy hxy
  rw [hax, hby, hxyeq]

/-- The non-strict order the merge uses, as a relation for sorting. -/
def recLe (a b : Rec) : Prop := recGreaterB a b = false

instance : DecidableRel recLe := fun a b => by
  unfold recLe
  infer_instance

instance : IsTrans Rec recLe := ⟨fun _ _ _ => recLeB_trans⟩

instance : IsTotal Rec recLe := ⟨by
  intro a b
  by_cases h1 : recGreaterB a b = false
  · exact Or.inl h1
  · right
    have h2 : recGreaterB a b = true := by
      cases h : recGreaterB a b
      · exact absurd h h1
      · rfl
    exact recGreaterB_asymm h2⟩

theorem chain_strict_of_sorted {l : List Rec}
    (hs : List.Sorted recLe l) (hnd : l.Nodup)
    (hinj : ∀ a ∈ l, ∀ b ∈ l, a.key = b.key → a.order = b.order → a = b) :
    RecsAsc l := by
  induction l with
  | nil => exact List.chain'_nil
  | cons a t ih =>
    cases t with
    | nil => exact List.chain'_singleton a
    | cons b t2 =>
      rw [RecsAsc, List.chain'_cons]
      constructor
      · have hab : recLe a b := (List.sorted_cons.mp hs).1 b (List.mem_cons_self b t2)
        by_cases hba : recGreaterB b a = true
        · exact hba
        · exfalso
          have hba2 : recGreaterB b a = false := by
            cases hh : recGreaterB b a
            · rfl
            · exact absurd hh hba
          have htie := rec_tie hab hba2
          have heq := hinj a (List.mem_cons_self a _)
            b (List.mem_cons_of_mem a (List.mem_cons_self b t2)) htie.1 htie.2
          rw [List.nodup_cons] at hnd
          exact hnd.1 (heq ▸ List.mem_cons_self b t2)
      · exact ih (List.sorted_cons.mp hs).2 (List.nodup_cons.mp hnd).2
          (fun x hx y hy => hinj x (List.mem_cons_of_mem a hx)
            y (List.mem_cons_of_mem a hy))

theorem sorted_rest_exists (streams : List (List Rec))
    (hsort : ∀ i, KeysAsc (streams.getD i [])) :
    ∃ rest, RecsAsc rest ∧ ∀ r, r ∈ rest ↔ r ∈ allTagged streams := by
  refine ⟨List.insertionSort recLe (allTagged streams), ?_, ?_⟩
  · have hs := List.sorted_insertionSort recLe (allTagged streams)
    have hperm := List.perm_insertionSort recLe (allTagged streams)
    have hnd : (List.insertionSort recLe (allTagged streams)).Nodup :=
      hperm.nodup_iff.mpr (allTagged_nodup streams hsort)
    exact chain_strict_of_sorted hs hnd
      (fun a ha b hb => allTagged_keyorder_inj streams hsort
        a (hperm.mem_iff.mp ha) b (hperm.mem_iff.mp hb))
  · intro r
    exact (List.perm_insertionSort recLe (allTagged streams)).mem_iff

end HastyDB

namespace HastyDB

theorem getD_of_ge_length (l : List (List Rec)) (i : Nat) (hi : l.length ≤ i) :
    l.getD i [] = [] := by
  rw [List.getD_eq_getElem?_getD, List.getElem?_eq_none (by omega)]
  rfl

/-- The initial fill establishes the merge-loop invariant for any strictly
sorted enumeration of all tagged input records. -/
theorem MInv_initFill (streams : List (List Rec))
    (hsort : ∀ i, KeysAsc (streams.getD i []))
    (rest : List Rec) (hra : RecsAsc rest)
    (hmem : ∀ r, r ∈ rest ↔ r ∈ allTagged streams) :
    MInv (initFill streams).1 (initFill streams).2 rest := by
  obtain ⟨ha, hb, hc, hd, he⟩ :=
    initFill_partial streams streams.length (le_refl _)
  have ha' : (initFill streams).2.length = streams.length := ha
  show MInv ((List.range streams.length).foldl initStep (newIndexMinHeap, streams)).1
    ((List.range streams.length).foldl initStep (newIndexMinHeap, streams)).2 rest
  refine ⟨he, ?_, ?_, ?_, ?_, ?_, hra, ?_⟩
  · intro i hi
    rw [ha] at hi
    exact hd i hi
  · intro i r hr
    by_cases hil : i < streams.length
    · rcases hc i hil with ⟨_, hnone, _⟩ | ⟨r0, rs, _, hsome, _⟩
      · rw [hnone] at hr
        exact absurd hr (by simp)
      · rw [hsome] at hr
        injection hr with hr
        rw [← hr]
        rfl
    · rw [hd i (by omega)] at hr
      exact absurd hr (by simp)
  · intro i hi hnone
    rw [ha] at hi
    rcases hc i hi with ⟨_, _, hgd⟩ | ⟨r0, rs, _, hsome, _⟩
    · exact hgd
    · rw [hsome] at hnone
      exact absurd hnone (by simp)
  · intro i r hr x hx
    by_cases hil : i < streams.length
    · rcases hc i hil with ⟨_, hnone, _⟩ | ⟨r0, rs, hstream, hsome, hgd⟩
      · rw [hnone] at hr
        exact absurd hr (by simp)
      · rw [hsome] at hr
        injection hr with hr
        rw [hgd] at hx
        have hchain := hsort i
        rw [hstream] at hchain
        have hp := List.chain'_iff_pairwise.mp hchain
        rw [List.pairwise_cons] at hp
        have hlt := hp.1 x hx
        rw [← hr]
        exact hlt
    · rw [hd i (by omega)] at hr
      exact absurd hr (by simp)
  · intro i
    by_cases hil : i < streams.length
    · rcases hc i hil with ⟨_, _, hgd⟩ | ⟨r0, rs, hstream, _, hgd⟩
      · rw [hgd]
        exact List.chain'_nil
      · rw [hgd]
        have hchain := hsort i
        rw [hstream] at hchain
        exact hchain.tail
    · rw [getD_of_ge_length _ i (by rw [ha]; omega)]
      exact List.chain'_nil
  · intro r
    rw [hmem r, mem_allTagged]
    constructor
    · rintro ⟨i, x, hi, hx, htag⟩
      rcases hc i hi with ⟨hstream, _, _⟩ | ⟨r0, rs, hstream, hsome, hgd⟩
      · rw [hstream] at hx
        exact absurd hx (List.not_mem_nil x)
      · rw [hstream] at hx
        rcases List.mem_cons.mp hx with hx1 | hx2
        · subst hx1
          exact Or.inl ⟨i, by rw [hsome, htag]⟩
        · exact Or.inr ⟨i, x, by rw [ha]; exact hi, by rw [hgd]; exact hx2, htag⟩
    · rintro (⟨i, hi⟩ | ⟨i, x, hi, hx, htag⟩)
      · by_cases hil : i < streams.length
        · rcases hc i hil with ⟨_, hnone, _⟩ | ⟨r0, rs, hstream, hsome, _⟩
          · rw [hnone] at hi
            exact absurd hi (by simp)
          · rw [hsome] at hi
            injection hi with hi
            exact ⟨i, r0, hil, by rw [hstream]; exact List.mem_cons_self r0 rs,
              hi.symm⟩
        · rw [hd i (by omega)] at hi
          exact absurd hi (by simp)
      · rw [ha] at hi
        rcases hc i hi with ⟨_, _, hgd⟩ | ⟨r0, rs, hstream, _, hgd⟩
        · rw [hgd] at hx
          exact absurd hx (List.not_mem_nil x)
        · rw [hgd] at hx
          exact ⟨i, x, hi, by rw [hstream]; exact List.mem_cons_of_mem r0 hx, htag⟩

end HastyDB

namespace HastyDB

/-- The residue of the compaction once a group representative `p` exists:
emit `p` when the key changes; otherwise keep only the newest value. -/
def compactRuns (p : Rec) : List Rec → List Rec
  | [] => [p]
  | r :: rest =>
    if p.key ≠ r.key then p :: compactRuns r rest
    else compactRuns { p with value := r.value } rest

theorem emitRest_some (R : List Rec) :
    ∀ (p : Rec) (out : List Rec),
      emitRest (some p) out R = some (out ++ compactRuns p R) := by
  induction R with
  | nil =>
    intro p out
    rfl
  | cons r rest ih =>
    intro p out
    by_cases hk : p.key ≠ r.key
    · have h1 : emitRest (some p) out (r :: rest)
          = emitRest (some r) (out ++ [p]) rest := by
        rw [emitRest_cons]
        rw [if_pos (show ((some p).getD r).key ≠ r.key from hk)]
        rfl
      rw [h1, ih r (out ++ [p])]
      rw [compactRuns, if_pos hk]
      simp [List.append_assoc]
    · have h1 : emitRest (some p) out (r :: rest)
          = emitRest (some { p with value := r.value }) out rest := by
        rw [emitRest_cons]
        rw [if_neg (show ¬((some p).getD r).key ≠ r.key from hk)]
        rfl
      rw [h1, ih { p with value := r.value } out]
      rw [compactRuns, if_neg hk]

/-- Correctness of the compaction residue over a strictly sorted run
list: output keys strictly ascend, output keys are exactly the input keys,
and each output value comes from the input record of largest `order` with
that key. -/
theorem compactRuns_spec (R : List Rec) :
    ∀ p, RecsAsc (p :: R) →
    KeysAsc (compactRuns p R)
    ∧ (∀ k, (∃ o ∈ compactRuns p R, o.key = k) ↔ (p.key = k ∨ ∃ r ∈ R, r.key = k))
    ∧ (∀ o ∈ compactRuns p R, ∃ w ∈ p :: R, w.key = o.key ∧ w.value = o.value
        ∧ ∀ r2 ∈ p :: R, r2.key = o.key → r2.order ≤ w.order) := by
  induction R with
  | nil =>
    intro p _
    refine ⟨List.chain'_singleton p, ?_, ?_⟩
    · intro k
      constructor
      · rintro ⟨o, ho, hok⟩
        rw [compactRuns] at ho
        rw [List.mem_singleton] at ho
        rw [ho] at hok
        exact Or.inl hok
      · rintro (h | ⟨r2, hr2, _⟩)
        · exact ⟨p, by rw [compactRuns]; exact List.mem_singleton_self p, h⟩
        · exact absurd hr2 (List.not_mem_nil r2)
    · intro o ho
      rw [compactRuns] at ho
      rw [List.mem_singleton] at ho
      subst ho
      refine ⟨o, List.mem_singleton_self o, rfl, rfl, ?_⟩
      intro r2 hr2 _
      rw [List.mem_singleton] at hr2
      rw [hr2]
  | cons r rest ih =>
    intro p hra
    have hpr : recGreaterB r p = true := (List.chain'_cons.mp hra).1
    have hrest : RecsAsc (r :: rest) := (List.chain'_cons.mp hra).2
    by_cases hk : p.key ≠ r.key
    · have hkey_lt : keyLtB p.key r.key = true := by
        rcases (recGreaterB_eq_true_iff r p).mp hpr with h | ⟨h, _⟩
        · exact h
        · exact absurd h.symm hk
      obtain ⟨ih1, ih2, ih3⟩ := ih r hrest
      have hallkeys : ∀ x ∈ r :: rest, keyLtB p.key x.key = true := by
        intro x hx
        rcases List.mem_cons.mp hx with he | hx2
        · rw [he]
          exact hkey_lt
        · have hxr : recGreaterB x r = true := by
            have hp := RecsAsc_pairwise hrest
            rw [List.pairwise_cons] at hp
            exact hp.1 x hx2
          rcases (recGreaterB_eq_true_iff x r).mp hxr with h | ⟨h, _⟩
          · exact keyLtB_trans hkey_lt h
          · rw [h]
            exact hkey_lt
      have hcompall : ∀ o ∈ compactRuns r rest, keyLtB p.key o.key = true := by
        intro o ho
        rcases (ih2 o.key).mp ⟨o, ho, rfl⟩ with h | ⟨r2, hr2, hr2k⟩
        · rw [← h]
          exact hallkeys r (List.mem_cons_self r rest)
        · rw [← hr2k]
          exact hallkeys r2 (List.mem_cons_of_mem r hr2)
      rw [compactRuns, if_pos hk]
      refine ⟨?_, ?_, ?_⟩
      · rw [KeysAsc, List.chain'_cons']
        refine ⟨?_, ih1⟩
        intro b hb
        exact hcompall b (List.mem_of_mem_head? hb)
      · intro k
        constructor
        · rintro ⟨o, ho, hok⟩
          rcases List.mem_cons.mp ho with he | ho2
          · rw [he] at hok
            exact Or.inl hok
          · rcases (ih2 k).mp ⟨o, ho2, hok⟩ with h | ⟨r2, hr2, hr2k⟩
            · exact Or.inr ⟨r, List.mem_cons_self r rest, h⟩
            · exact Or.inr ⟨r2, List.mem_cons_of_mem r hr2, hr2k⟩
        · rintro (h | ⟨r2, hr2, hr2k⟩)
          · exact ⟨p, List.mem_cons_self p _, h⟩
          · rcases List.mem_cons.mp hr2 with he | hr22
            · obtain ⟨o, ho, hok⟩ := (ih2 k).mpr (Or.inl (by rw [← he]; exact hr2k))
              exact ⟨o, List.mem_cons_of_mem p ho, hok⟩
            · obtain ⟨o, ho, hok⟩ := (ih2 k).mpr (Or.inr ⟨r2, hr22, hr2k⟩)
              exact ⟨o, List.mem_cons_of_mem p ho, hok⟩
      · intro o ho
        rcases List.mem_cons.mp ho with he | ho2
        · subst he
          refine ⟨o, List.mem_cons_self o _, rfl, rfl, ?_⟩
          intro r2 hr2 hr2k
          rcases List.mem_cons.mp hr2 with he2 | hr22
          · rw [he2]
          · exfalso
            have hlt := hallkeys r2 hr22
            rw [hr2k] at hlt
            rw [keyLtB_irrefl] at hlt
            simp at hlt
        · obtain ⟨w, hw, hwk, hwv, hwmax⟩ := ih3 o ho2
          refine ⟨w, List.mem_cons_of_mem p hw, hwk, hwv, ?_⟩
          intro r2 hr2 hr2k
          rcases List.mem_cons.mp hr2 with he2 | hr22
          · exfalso
            have hlt := hcompall o ho2
            rw [← hr2k, he2] at hlt
            rw [keyLtB_irrefl] at hlt
            simp at hlt
          · exact hwmax r2 hr22 hr2k
    · push_neg at hk
      have hord : p.order < r.order := by
        rcases (recGreaterB_eq_true_iff r p).mp hpr with h | ⟨_, h⟩
        · exfalso
          rw [hk] at h
          rw [keyLtB_irrefl] at h
          simp at h
        · exact h
      have hra2 : RecsAsc ({ p with value := r.value } :: rest) := by
        cases rest with
        | nil => exact List.chain'_singleton _
        | cons t ts =>
          rw [RecsAsc, List.chain'_cons]
          refine ⟨?_, (List.chain'_cons.mp hrest).2⟩
          have h1 : recGreaterB t r = true := (List.chain'_cons.mp hrest).1
          exact recGreaterB_trans h1 hpr
      obtain ⟨ih1, ih2, ih3⟩ := ih { p with value := r.value } hra2
      rw [compactRuns, if_neg (fun hcon => hcon hk)]
      refine ⟨ih1, ?_, ?_⟩
      · intro k
        rw [ih2 k]
        constructor
        · rintro (h | ⟨r2, hr2, hr2k⟩)
          · exact Or.inl h
          · exact Or.inr ⟨r2, List.mem_cons_of_mem r hr2, hr2k⟩
        · rintro (h | ⟨r2, hr2, hr2k⟩)
          · exact Or.inl h
          · rcases List.mem_cons.mp hr2 with he | h22
            · left
              show p.key = k
              rw [hk, ← he]
              exact hr2k
            · exact Or.inr ⟨r2, h22, hr2k⟩
      · intro o ho
        obtain ⟨w, hw, hwk, hwv, hwmax⟩ := ih3 o ho
        rcases List.mem_cons.mp hw with he | hw2
        · refine ⟨r, List.mem_cons_of_mem p (List.mem_cons_self r rest), ?_, ?_, ?_⟩
          · show r.key = o.key
            rw [← hk]
            rw [he] at hwk
            exact hwk
          · show r.value = o.value
            rw [he] at hwv
            exact hwv
          · intro r2 hr2 hr2k
            rcases List.mem_cons.mp hr2 with he2 | h22
            · rw [he2]
              omega
            · rcases List.mem_cons.mp h22 with he3 | h33
              · rw [he3]
              · have hle := hwmax r2 (List.mem_cons_of_mem _ h33) hr2k
                rw [he] at hle
                have hle2 : r2.order ≤ p.order := hle
                omega
        · refine ⟨w, List.mem_cons_of_mem p (List.mem_cons_of_mem r hw2), hwk, hwv, ?_⟩
          intro r2 hr2 hr2k
          rcases List.mem_cons.mp hr2 with he2 | h22
          · have hpmax := hwmax { p with value := r.value }
              (List.mem_cons_self _ rest) (by show p.key = o.key; rw [← he2]; exact hr2k)
            have hpo : p.order ≤ w.order := hpmax
            rw [he2]
            exact hpo
          · rcases List.mem_cons.mp h22 with he3 | h33
            · have hwr : recGreaterB w r = true := by
                have hp := RecsAsc_pairwise hrest
                rw [List.pairwise_cons] at hp
                exact hp.1 w hw2
              rcases (recGreaterB_eq_true_iff w r).mp hwr with h | ⟨_, h⟩
              · exfalso
                have hkeq : w.key = r.key := by
                  rw [hwk, ← hr2k, he3]
                rw [hkeq] at h
                rw [keyLtB_irrefl] at h
                simp at h
              · rw [he3]
                omega
            · exact hwmax r2 (List.mem_cons_of_mem _ h33) hr2k

end HastyDB

namespace HastyDB

theorem getD_eq_elem (l : List (List Rec)) (i : Nat) (hi : i < l.length) :
    l.getD i [] = l[i] := by
  rw [List.getD_eq_getElem?_getD, List.getElem?_eq_getElem hi]
  rfl

theorem emitRest_none_cons (r : Rec) (R : List Rec) :
    emitRest none [] (r :: R) = some (compactRuns r R) := by
  have h1 : emitRest none [] (r :: R) = emitRest (some r) [] R := by
    rw [emitRest_cons]
    rw [if_neg (show ¬((none : Option Rec).getD r).key ≠ r.key from fun hc => hc rfl)]
    rfl
  rw [h1, emitRest_some]
  rfl

/-- Under sorted inputs with at least one record, `mergeStreams` runs the
merge loop to completion and returns the compaction of the strictly
sorted pop sequence of all tagged input records. -/
theorem mergeStreams_eq_compact (streams : List (List Rec))
    (hsorted : ∀ s ∈ streams, KeysAsc s)
    (hne : ∃ s ∈ streams, s ≠ []) :
    ∃ r R, RecsAsc (r :: R) ∧ (∀ t, t ∈ r :: R ↔ t ∈ allTagged streams)
      ∧ mergeStreams streams = some (compactRuns r R) := by
  have hsort : ∀ i, KeysAsc (streams.getD i []) := by
    intro i
    by_cases hi : i < streams.length
    · rw [getD_eq_elem streams i hi]
      exact hsorted _ (List.getElem_mem hi)
    · rw [getD_of_ge_length streams i (by omega)]
      exact List.chain'_nil
  obtain ⟨rest, hra, hmem⟩ := sorted_rest_exists streams hsort
  have hminv := MInv_initFill streams hsort rest hra hmem
  have hloop : mergeStreams streams = emitRest none [] rest :=
    mergeLoop_eq_emitRest
      ((initFill streams).1.n + sumLens (initFill streams).2)
      (initFill streams).1 (initFill streams).2 rest none [] (le_refl _) hminv
  obtain ⟨s0, hs0, hs0ne⟩ := hne
  obtain ⟨i0, hi0, hgei⟩ := List.mem_iff_getElem.mp hs0
  obtain ⟨x0, xs0, hx0⟩ : ∃ x xs, s0 = x :: xs := by
    cases s0 with
    | nil => exact absurd rfl hs0ne
    | cons x xs => exact ⟨x, xs, rfl⟩
  have hx0mem : tag i0 x0 ∈ rest := by
    rw [hmem, mem_allTagged]
    refine ⟨i0, x0, hi0, ?_, rfl⟩
    rw [getD_eq_elem streams i0 hi0, hgei, hx0]
    exact List.mem_cons_self x0 xs0
  obtain ⟨r, R, hrR⟩ : ∃ r R, rest = r :: R := by
    cases rest with
    | nil => exact absurd hx0mem (List.not_mem_nil _)
    | cons a b => exact ⟨a, b, rfl⟩
  subst hrR
  refine ⟨r, R, hra, hmem, ?_⟩
  rw [hloop, emitRest_none_cons]

end HastyDB

namespace HastyDB

/-- C3: for every set of sorted, unique-key input streams (strictly
ascending keys within each stream) with at least one non-empty stream,
`mergeStreams` produces an output sorted in strictly ascending key order
(hence each key appears exactly once, restated by the pairwise
distinct-keys conjunct), whose keys are exactly the distinct keys across
all inputs, and which pairs each key with the value from the
highest-indexed (newest) input stream containing that key: the witness
stream `i` holds the key with the output's value, and no later stream
holds the key. -/
theorem mergeStreams_correct (streams : List (List Rec))
    (hsorted : ∀ s ∈ streams, KeysAsc s)
    (hne : ∃ s ∈ streams, s ≠ []) :
    ∃ out, mergeStreams streams = some out
      ∧ KeysAsc out
      ∧ List.Pairwise (fun a b => a.key ≠ b.key) out
      ∧ (∀ k, (∃ o ∈ out, o.key = k) ↔ ∃ s ∈ streams, ∃ x ∈ s, x.key = k)
      ∧ (∀ o ∈ out, ∃ i, i < streams.length
          ∧ (∃ x ∈ streams.getD i [], x.key = o.key ∧ x.value = o.value)
          ∧ ∀ j, i < j → j < streams.length →
              ∀ y ∈ streams.getD j [], y.key ≠ o.key) := by
  obtain ⟨r, R, hra, hmem, hout⟩ := mergeStreams_eq_compact streams hsorted hne
  obtain ⟨hc1, hc2, hc3⟩ := compactRuns_spec R r hra
  refine ⟨compactRuns r R, hout, hc1, ?_, ?_, ?_⟩
  · exact (KeysAsc_pairwise hc1).imp (fun h => keyLtB_ne h)
  · intro k
    rw [hc2 k]
    constructor
    · rintro (h | ⟨x, hx, hxk⟩)
      · obtain ⟨i, y, hi, hy, hty⟩ :=
          (mem_allTagged streams r).mp ((hmem r).mp (List.mem_cons_self r R))
        refine ⟨streams[i], List.getElem_mem hi, y, ?_, ?_⟩
        · rw [← getD_eq_elem streams i hi]
          exact hy
        · rw [hty] at h
          exact h
      · obtain ⟨i, y, hi, hy, hty⟩ :=
          (mem_allTagged streams x).mp ((hmem x).mp (List.mem_cons_of_mem r hx))
        refine ⟨streams[i], List.getElem_mem hi, y, ?_, ?_⟩
        · rw [← getD_eq_elem streams i hi]
          exact hy
        · rw [hty] at hxk
          exact hxk
    · rintro ⟨s, hs, x, hx, hxk⟩
      obtain ⟨i, hi, hei⟩ := List.mem_iff_getElem.mp hs
      have hmt : tag i x ∈ r :: R := by
        rw [hmem, mem_allTagged]
        refine ⟨i, x, hi, ?_, rfl⟩
        rw [getD_eq_elem streams i hi, hei]
        exact hx
      rcases List.mem_cons.mp hmt with he | hR
      · left
        rw [← he]
        exact hxk
      · exact Or.inr ⟨tag i x, hR, hxk⟩
  · intro o ho
    obtain ⟨w, hw, hwk, hwv, hwmax⟩ := hc3 o ho
    obtain ⟨i, x, hi, hx, htx⟩ := (mem_allTagged streams w).mp ((hmem w).mp hw)
    refine ⟨i, hi, ⟨x, hx, ?_, ?_⟩, ?_⟩
    · rw [htx] at hwk
      exact hwk
    · rw [htx] at hwv
      exact hwv
    · intro j hij hj y hy hyk
      have hmt : tag j y ∈ r :: R := by
        rw [hmem, mem_allTagged]
        exact ⟨j, y, hj, hy, rfl⟩
      have hle := hwmax (tag j y) hmt (show (tag j y).key = o.key from hyk)
      rw [htx] at hle
      have hji : j ≤ i := hle
      omega

/-- Boolean check mirroring `KeysAsc`, for concrete evaluation. -/
def keysAscB : List Rec → Bool
  | [] => true
  | [_] => true
  | a :: b :: t => keyLtB a.key b.key && keysAscB (b :: t)

theorem keysAscB_iff (s : List Rec) : KeysAsc s ↔ keysAscB s = true := by
  induction s with
  | nil => simp [KeysAsc, keysAscB]
  | cons a t ih =>
    cases t with
    | nil => simp [KeysAsc, keysAscB]
    | cons b t2 =>
      rw [KeysAsc, List.chain'_cons, keysAscB, Bool.and_eq_true]
      exact and_congr Iff.rfl ih

instance (s : List Rec) : Decidable (KeysAsc s) :=
  decidable_of_iff (keysAscB s = true) (keysAscB_iff s).symm

/-- The S3 example of the spec at the byte level: older stream
`k2:v1 k4:v2`, newer stream `k1:v3 k2:v4 k3:v5` (keys as single ASCII
digits 1-4 after `k`, values as single bytes). -/
theorem mergeStreams_correct_witness :
    (∀ s ∈ [[Rec.mk [50] [1] 0, Rec.mk [52] [2] 0],
        [Rec.mk [49] [3] 0, Rec.mk [50] [4] 0, Rec.mk [51] [5] 0]], KeysAsc s)
    ∧ (∃ s ∈ [[Rec.mk [50] [1] 0, Rec.mk [52] [2] 0],
        [Rec.mk [49] [3] 0, Rec.mk [50] [4] 0, Rec.mk [51] [5] 0]], s ≠ [])
    ∧ ∃ out,
        mergeStreams [[Rec.mk [50] [1] 0, Rec.mk [52] [2] 0],
          [Rec.mk [49] [3] 0, Rec.mk [50] [4] 0, Rec.mk [51] [5] 0]] = some out
        ∧ KeysAsc out
        ∧ List.Pairwise (fun a b => a.key ≠ b.key) out
        ∧ (∀ k, (∃ o ∈ out, o.key = k) ↔
            ∃ s ∈ [[Rec.mk [50] [1] 0, Rec.mk [52] [2] 0],
              [Rec.mk [49] [3] 0, Rec.mk [50] [4] 0, Rec.mk [51] [5] 0]],
              ∃ x ∈ s, x.key = k)
        ∧ (∀ o ∈ out, ∃ i,
            i < [[Rec.mk [50] [1] 0, Rec.mk [52] [2] 0],
              [Rec.mk [49] [3] 0, Rec.mk [50] [4] 0, Rec.mk [51] [5] 0]].length
            ∧ (∃ x ∈ [[Rec.mk [50] [1] 0, Rec.mk [52] [2] 0],
                [Rec.mk [49] [3] 0, Rec.mk [50] [4] 0,
                  Rec.mk [51] [5] 0]].getD i [],
                x.key = o.key ∧ x.value = o.value)
            ∧ ∀ j, i < j →
                j < [[Rec.mk [50] [1] 0, Rec.mk [52] [2] 0],
                  [Rec.mk [49] [3] 0, Rec.mk [50] [4] 0,
                    Rec.mk [51] [5] 0]].length →
                ∀ y ∈ [[Rec.mk [50] [1] 0, Rec.mk [52] [2] 0],
                  [Rec.mk [49] [3] 0, Rec.mk [50] [4] 0,
                    Rec.mk [51] [5] 0]].getD j [],
                  y.key ≠ o.key) :=
  ⟨by decide, by decide,
    mergeStreams_correct
      [[Rec.mk [50] [1] 0, Rec.mk [52] [2] 0],
        [Rec.mk [49] [3] 0, Rec.mk [50] [4] 0, Rec.mk [51] [5] 0]]
      (by decide) (by decide)⟩

end HastyDB

namespace HastyDB

theorem initStep_empty (acc : IndexMinHeap × List (List Rec)) (i : Nat)
    (he : acc.2.getD i [] = []) : initStep acc i = acc := by
  rw [initStep]
  simp only [he]

theorem initFill_all_empty (streams : List (List Rec))
    (he : ∀ s ∈ streams, s = []) :
    initFill streams = (newIndexMinHeap, streams) := by
  have hgd : ∀ i, streams.getD i [] = [] := by
    intro i
    by_cases hi : i < streams.length
    · rw [getD_eq_elem streams i hi]
      exact he _ (List.getElem_mem hi)
    · exact getD_of_ge_length streams i (by omega)
  rw [initFill]
  generalize List.range streams.length = l
  induction l with
  | nil => rfl
  | cons a l2 ih =>
    rw [List.foldl_cons, initStep_empty (newIndexMinHeap, streams) a (hgd a), ih]

/-- C9: `mergeStreams` is total only when some input stream yields a
record.  With zero streams, or with streams that all yield no records,
the main loop never runs, `prev` stays nil and the final
`encode(out, prev)` dereferences the nil record (`none` result); when
some sorted stream is non-empty this nil-dereference branch is
unreachable and a merged output is returned. -/
theorem mergeStreams_nil_record_deref :
    (mergeStreams [] = none)
    ∧ (∀ streams, (∀ s ∈ streams, s = []) → mergeStreams streams = none)
    ∧ (∀ streams, (∀ s ∈ streams, KeysAsc s) → (∃ s ∈ streams, s ≠ []) →
        ∃ out, mergeStreams streams = some out) := by
  have hempty : ∀ streams, (∀ s ∈ streams, s = []) →
      mergeStreams streams = none := by
    intro streams he
    show mergeLoop (initFill streams).1 (initFill streams).2 none [] = none
    rw [initFill_all_empty streams he]
    rw [mergeLoop.eq_def, dif_pos (show newIndexMinHeap.n = 0 from rfl)]
  refine ⟨hempty [] (by intro s hs; exact absurd hs (List.not_mem_nil s)),
    hempty, ?_⟩
  intro streams hsorted hne
  obtain ⟨r, R, _, _, hout⟩ := mergeStreams_eq_compact streams hsorted hne
  exact ⟨compactRuns r R, hout⟩

/-- Concrete instances of the three branches: no streams, two empty
streams, and a single one-record stream. -/
theorem mergeStreams_nil_record_deref_witness :
    (mergeStreams [] = none)
    ∧ (mergeStreams [[], []] = none)
    ∧ ∃ out, mergeStreams [[Rec.mk [49] [7] 0]] = some out :=
  ⟨mergeStreams_nil_record_deref.1,
    mergeStreams_nil_record_deref.2.1 [[], []] (by decide),
    mergeStreams_nil_record_deref.2.2 [[Rec.mk [49] [7] 0]]
      (by decide) (by decide)⟩

end HastyDB
